import Mathlib

/-!
The page pipeline of datacacher's `main.go`.

A shallow embedding of the stages of `main.go` (`getter.Get`,
`formatter.Process`, `filter.Process`, `urlParser.Process`), of the loop of
`main` that runs them page after page and of the legacy helper `content`,
together with the `strings` primitives they call, and the properties proved
about them.  The HTTP client and `url.Parse` are library code and enter as
parameters.

Go strings are immutable byte sequences; they are modelled as lists of bytes,
a byte being a natural number.  Positions are Go `int`s and are modelled as
`Int`; every position in this program is bounded by the length of a string, so
no 64-bit wrap-around can occur.
-/

namespace Datacacher

/-! ## Strings -/

/-- A byte of a Go string. -/
abbrev Byte := Nat

/-- A Go `string`: a sequence of bytes. -/
abbrev Str := List Byte

/-- The bytes of an ASCII literal. -/
def bytes (s : String) : Str := s.toList.map Char.toNat

/-- The position of the first instance of `substr` in `s`, if there is one. -/
def indexOpt (substr : Str) : Str → Option Nat
  | [] => if substr.isPrefixOf [] then some 0 else none
  | c :: cs =>
    if substr.isPrefixOf (c :: cs) then some 0
    else (indexOpt substr cs).map (· + 1)

/-- Go `strings.Index(s, substr)`: the index of the first instance of `substr`
in `s`, or `-1` if `substr` is not present in `s`. -/
def Index (s substr : Str) : Int :=
  match indexOpt substr s with
  | some i => (i : Int)
  | none => -1

/-- The position of the last instance of `substr` in `s`, if there is one. -/
def lastIndexOpt (substr : Str) : Str → Option Nat
  | [] => if substr.isPrefixOf [] then some 0 else none
  | c :: cs =>
    match lastIndexOpt substr cs with
    | some i => some (i + 1)
    | none => if substr.isPrefixOf (c :: cs) then some 0 else none

/-- Go `strings.LastIndex(s, substr)`: the index of the last instance of
`substr` in `s`, or `-1` if `substr` is not present in `s`. -/
def LastIndex (s substr : Str) : Int :=
  match lastIndexOpt substr s with
  | some i => (i : Int)
  | none => -1

/-- Go `strings.HasPrefix(s, prefix)`. -/
def HasPrefix (s pre : Str) : Bool := pre.isPrefixOf s

/-- The Go slice expression `s[lo:hi]`; `none` stands for the run-time panic
raised when `0 ≤ lo ≤ hi ≤ len(s)` fails. -/
def slice (s : Str) (lo hi : Int) : Option Str :=
  if 0 ≤ lo ∧ lo ≤ hi ∧ hi ≤ (s.length : Int) then
    some ((s.take hi.toNat).drop lo.toNat)
  else none

/-- The loop of Go `strings.Split` for a non-empty separator: cut at each
instance of `sep` found by `Index`, left to right.  `fuel` bounds the number of
cuts; the length of the string is always enough. -/
def splitLoop (sep : Str) : Nat → Str → List Str
  | 0, s => [s]
  | fuel + 1, s =>
    match indexOpt sep s with
    | none => [s]
    | some m => s.take m :: splitLoop sep fuel (s.drop (m + sep.length))

/-- Go `strings.Split(s, sep)` for a non-empty separator `sep` (the program
only splits on `"|"`): the substrings between the instances of `sep`. -/
def Split (s sep : Str) (_ : sep ≠ []) : List Str := splitLoop sep s.length s

/-! ## Results -/

/-- The errors returned by the processors, one constructor per `return` site. -/
inductive Err where
  /-- `failed to locate content-start: %s` (`filter.Process`). -/
  | contentStart (marker : Str)
  /-- `failed to locate content-end: %s` (`filter.Process`). -/
  | contentEnd (marker : Str)
  /-- `URL pattern splits by '|'` (`urlParser.Process`). -/
  | patternSplit
  /-- `Failed to match the start of url pattern: %s` (`urlParser.Process`). -/
  | urlStart (before : Str)
  /-- `Failed to match the end of url pattern: %s` (`urlParser.Process`). -/
  | urlEnd (after : Str)
  /-- The error returned by `url.Parse` on the base URL (`urlParser.Process`). -/
  | urlParse (base : Str)
  /-- `Can not acquire base url from: %s` (`urlParser.Process`). -/
  | baseUrl (base : Str)
  deriving DecidableEq, Repr

/-- What a call of a `Process` method does: return a string with a nil error,
return an error, or panic on an out-of-range slice. -/
inductive Outcome where
  | ok (value : Str)
  | error (e : Err)
  | panic
  deriving DecidableEq, Repr

/-! ## `formatter.Process` -/

/-- The loop state of `formatter.Process`: the buffer and the `escape` flag. -/
structure fmtState where
  buff : Str
  escape : Bool
  deriving DecidableEq, Repr

/-- One iteration of the loop of `formatter.Process` on the byte `c`. -/
def fmtStep (st : fmtState) (c : Byte) : fmtState :=
  let escape := if c = 60 then true else st.escape
  let buff := if !escape then st.buff ++ [c] else st.buff
  let escape := if c = 62 then false else escape
  { buff := buff, escape := escape }

/-- `formatter.Process`: drop everything from a `<` to the next `>`. -/
def formatter.Process (source : Str) : Outcome :=
  .ok (source.foldl fmtStep { buff := [], escape := false }).buff

/-- The scan of the specification with its inside-tag flag: `<` sets the flag,
a byte seen while the flag is set is dropped, `>` clears the flag, a byte seen
while the flag is clear is copied. -/
def stripScan : Bool → Str → Str
  | _, [] => []
  | inTag, c :: cs =>
    if c = 60 then stripScan true cs
    else if inTag then (if c = 62 then stripScan false cs else stripScan true cs)
    else c :: stripScan false cs

/-! ## `filter.Process` -/

/-- The receiver of `filter.Process`. -/
structure filter where
  ContentStart : Str
  ContentEnd : Str
  deriving DecidableEq, Repr

/-- `filter.Process`: the text between the first `ContentStart` and the first
`ContentEnd` after it. -/
def filter.Process (f : filter) (source : Str) : Outcome :=
  let posStart := Index source f.ContentStart
  if posStart < 0 then .error (.contentStart f.ContentStart) else
  let posStart := posStart + (f.ContentStart.length : Int)
  match slice source posStart source.length with
  | none => .panic
  | some tail =>
    let posEnd := Index tail f.ContentEnd
    if posEnd < 0 then .error (.contentEnd f.ContentEnd) else
    match slice source posStart (posStart + posEnd) with
    | none => .panic
    | some r => .ok r

/-! ## `urlParser.Process` -/

/-- The receiver of `urlParser.Process`. -/
structure urlParser where
  BaseUrl : Str
  UrlPattern : Str
  deriving DecidableEq, Repr

/-- Lines 145-161 of `urlParser.Process`: the resolution of the token `rawUrl`
against the base URL.  `hostname` stands for the library call
`url.Parse(base)` followed by `Hostname()`; `none` is a parse error. -/
def urlParser.resolve (hostname : Str → Option Str) (u : urlParser) (rawUrl : Str) :
    Outcome :=
  if HasPrefix rawUrl (bytes "http") then .ok rawUrl
  else if HasPrefix rawUrl (bytes "/") then
    match hostname u.BaseUrl with
    | none => .error (.urlParse u.BaseUrl)
    | some host => .ok (host ++ rawUrl)
  else
    if u.BaseUrl.length = 0 ∨ Index u.BaseUrl (bytes "/") < 0 then
      .error (.baseUrl u.BaseUrl)
    else
      match slice u.BaseUrl 0 (LastIndex u.BaseUrl (bytes "/")) with
      | none => .panic
      | some dir => .ok (dir ++ bytes "/" ++ rawUrl)

/-- `urlParser.Process`: cut the token between the two halves of the pattern
out of the page and resolve it against the base URL. -/
def urlParser.Process (hostname : Str → Option Str) (u : urlParser) (source : Str) :
    Outcome :=
  match Split u.UrlPattern (bytes "|") (by decide) with
  | [before, after] =>
    let posStart := Index source before
    if posStart < 0 then .error (.urlStart before) else
    let posStart := posStart + (before.length : Int)
    match slice source posStart source.length with
    | none => .panic
    | some tail =>
      let posEnd := Index tail after
      if posEnd < 0 then .error (.urlEnd after) else
      match slice source posStart (posStart + posEnd) with
      | none => .panic
      | some rawUrl => urlParser.resolve hostname u rawUrl
  | _ => .error .patternSplit

/-- A stand-in for `url.Parse(s)` followed by `Hostname()` on URLs of the
shape `scheme://host[:port][/path]`: the text after `://` up to the first `/`,
`?` or `#`, cut at its first `:`.  A string without `://` has no host. -/
def simpleHostname (s : Str) : Option Str :=
  match indexOpt (bytes "://") s with
  | none => some []
  | some i =>
    let authority := (s.drop (i + 3)).takeWhile (fun c => c != 47 && c != 63 && c != 35)
    some (authority.takeWhile (fun c => c != 58))

/-- The shape shared by lines 112-122 of `filter.Process` and lines 135-144 of
`urlParser.Process`: locate `S`, locate `E` behind it, and hand the text in
between to `k`.  Used only to reason about both at once. -/
def cutWith (source S E : Str) (e1 e2 : Outcome) (k : Str → Outcome) : Outcome :=
  let posStart := Index source S
  if posStart < 0 then e1 else
  let posStart := posStart + (S.length : Int)
  match slice source posStart source.length with
  | none => .panic
  | some tail =>
    let posEnd := Index tail E
    if posEnd < 0 then e2 else
    match slice source posStart (posStart + posEnd) with
    | none => .panic
    | some r => k r

/-! ## `getter.Get` -/

/-- The errors returned by `getter.Get`. -/
inductive FetchErr where
  /-- The error returned by `client.Get(url)`. -/
  | transport (e : Str)
  /-- `failed to access the url: %s with code: %d`. -/
  | status (url : Str) (code : Int)
  /-- The error of `charset.NewReader` or of `ioutil.ReadAll` on the body. -/
  | read
  deriving DecidableEq, Repr

/-- What a call of `getter.Get` does: return the content with a nil error,
return an error, or panic on the nil response. -/
inductive Fetched where
  | ok (content : Str)
  | error (e : FetchErr)
  | panic
  deriving DecidableEq, Repr

/-- An `*http.Response` as far as `getter.Get` looks at it: the status code and
the body as decoded by `charset.NewReader` and read by `ioutil.ReadAll`
(`none` when one of the two fails). -/
structure Response where
  StatusCode : Int
  Body : Option Str
  deriving DecidableEq, Repr

/-- The result of one `client.Get(url)`: an error or a response. -/
inductive Attempt where
  | failure (e : Str)
  | response (resp : Response)
  deriving DecidableEq, Repr

/-- The HTTP client as an oracle: `client n url` is what the request number `n`
of the run (counted from 0) yields when it asks for `url`. -/
abbrev Client := Nat → Str → Attempt

/-- The receiver of `getter.Get`. -/
structure getter where
  Retry : Int
  deriving DecidableEq, Repr

/-- The variables `err` and `resp` of `getter.Get`. -/
structure getVars where
  err : Option FetchErr
  resp : Option Response
  deriving DecidableEq, Repr

/-- The loop `for cnt := 0; cnt < g.Retry; cnt++` of `getter.Get` with
`remaining` iterations to go before `cnt` reaches `g.Retry`; `made` is `cnt`,
the number of requests made so far, and `first` the number of requests made
before the call.  Yields the variables behind the loop and the number of
requests made. -/
def getter.loop (client : Client) (first : Nat) (url : Str) :
    Nat → Nat → getVars → getVars × Nat
  | 0, made, v => (v, made)
  | remaining + 1, made, _ =>
    match client (first + made) url with
    | .failure e =>
      getter.loop client first url remaining (made + 1)
        { err := some (.transport e), resp := none }
    | .response resp =>
      if resp.StatusCode ≠ 200 then
        getter.loop client first url remaining (made + 1)
          { err := some (.status url resp.StatusCode), resp := some resp }
      else ({ err := none, resp := some resp }, made + 1)

/-- `getter.Get`: request `url` up to `Retry` times, stop at the first response
with status 200 and return its body.  The second component is the number of
requests made. -/
def getter.Get (g : getter) (client : Client) (first : Nat) (url : Str) : Fetched × Nat :=
  let after := getter.loop client first url g.Retry.toNat 0 { err := none, resp := none }
  match after.1.err with
  | some e => (.error e, after.2)
  | none =>
    match after.1.resp with
    | none => (.panic, after.2)
    | some resp =>
      match resp.Body with
      | none => (.error .read, after.2)
      | some content => (.ok content, after.2)

/-- Whether an attempt counts as failed in the loop of `getter.Get`. -/
def Attempt.failed : Attempt → Bool
  | .failure _ => true
  | .response resp => resp.StatusCode != 200

/-- The error the loop of `getter.Get` records for a failed attempt. -/
def Attempt.error (url : Str) : Attempt → FetchErr
  | .failure e => .transport e
  | .response resp => .status url resp.StatusCode

/-- A stub HTTP client serving fixed pages: status 200 with the page for a
known URL, status 404 for any other. -/
def stubClient (pages : List (Str × Str)) : Client := fun _ url =>
  match pages.lookup url with
  | some page => .response { StatusCode := 200, Body := some page }
  | none => .response { StatusCode := 404, Body := some [] }

/-! ## The crawl loop of `main` -/

structure FilterConfig where
  Start : Str
  End : Str
  deriving DecidableEq, Repr

structure FormatConfig where
  DeletePatterns : List Str
  deriving DecidableEq, Repr

structure SourceConfig where
  Url : Str
  NextPattern : Str
  AutoFetch : Bool
  deriving DecidableEq, Repr

structure Config where
  Source : SourceConfig
  Filter : FilterConfig
  Formater : FormatConfig
  deriving DecidableEq, Repr

/-- The state of the run between two iterations of the loop of `main`: the
variable `url`, the number of HTTP requests made so far, the arguments of the
calls of `getter.Get` so far and the data lines printed so far. -/
structure LoopState where
  url : Str
  requests : Nat
  gets : List Str
  results : List Str
  deriving DecidableEq, Repr

/-- How an iteration of the loop of `main` ends: with another iteration
(`next`), with `break` (`done`), with `os.Exit(code)`, or with a panic. -/
inductive Step where
  | next (st : LoopState)
  | done (st : LoopState)
  | exit (code : Nat) (st : LoopState)
  | panic (st : LoopState)
  deriving DecidableEq, Repr

/-- The state a step ends in. -/
def Step.state : Step → LoopState
  | .next st => st
  | .done st => st
  | .exit _ st => st
  | .panic st => st

/-- One iteration of the `for` loop of `main` (lines 182-214). -/
def crawlIter (config : Config) (client : Client) (hostname : Str → Option Str)
    (st : LoopState) : Step :=
  let g : getter := { Retry := 3 }
  let got := g.Get client st.requests st.url
  let st : LoopState :=
    { st with requests := st.requests + got.2, gets := st.gets ++ [st.url] }
  match got.1 with
  | .panic => .panic st
  | .error _ => .exit 3 st
  | .ok content =>
    let u : urlParser :=
      { BaseUrl := config.Source.Url, UrlPattern := config.Source.NextPattern }
    match u.Process hostname content with
    | .panic => .panic st
    | .error _ => .exit 4 { st with url := [] }
    | .ok url =>
      let st : LoopState := { st with url := url }
      let f : filter :=
        { ContentStart := config.Filter.Start, ContentEnd := config.Filter.End }
      match f.Process content with
      | .panic => .panic st
      | .error _ => .exit 5 st
      | .ok data =>
        match formatter.Process data with
        | .panic => .panic st
        | .error _ =>
          let st : LoopState := { st with results := st.results ++ [[]] }
          if url = [] ∨ !config.Source.AutoFetch then .done st else .next st
        | .ok data =>
          let st : LoopState := { st with results := st.results ++ [data] }
          if url = [] ∨ !config.Source.AutoFetch then .done st else .next st

/-- The state in which the loop of `main` is entered: `url := config.Source.Url`. -/
def crawlInit (config : Config) : LoopState :=
  { url := config.Source.Url, requests := 0, gets := [], results := [] }

/-- The loop of `main`, run for at most `fuel` iterations; `next` is the loop
still running when the fuel is used up. -/
def crawl (config : Config) (client : Client) (hostname : Str → Option Str) :
    Nat → LoopState → Step
  | 0, st => .next st
  | fuel + 1, st =>
    match crawlIter config client hostname st with
    | .next st => crawl config client hostname fuel st
    | s => s

/-! ## The legacy helper `content` -/

/-- The errors returned by `content`. -/
inductive contentErr where
  /-- `failed to find the start tag: %s, from: %s`. -/
  | startTag (start text : Str)
  /-- `failed to find the end tag: %s, from: %s`. -/
  | endTag (end_ text : Str)
  deriving DecidableEq, Repr

/-- What a call of `content` does. -/
inductive contentOutcome where
  | ok (value : Str)
  | error (e : contentErr)
  | panic
  deriving DecidableEq, Repr

/-- `content` (lines 267-278): both markers are searched from the start of the
text. -/
def content (text start end_ : Str) : contentOutcome :=
  let posStart := Index text start
  if posStart < 0 then .error (.startTag start text) else
  let posEnd := Index text end_
  if posEnd < 0 then .error (.endTag end_ text) else
  let posStart := posStart + (start.length : Int)
  match slice text posStart posEnd with
  | none => .panic
  | some r => .ok r

/-! ## Facts about the `strings` primitives -/

theorem indexOpt_eq_some_iff (sub : Str) :
    ∀ (s : Str) (i : Nat), indexOpt sub s = some i ↔
      (sub <+: s.drop i ∧ i ≤ s.length ∧ ∀ k < i, ¬ sub <+: s.drop k) := by
  intro s
  induction s with
  | nil =>
    intro i
    by_cases h : sub.isPrefixOf [] = true
    · simp only [indexOpt, h, if_true, Option.some.injEq, List.drop_nil, List.length_nil,
        Nat.le_zero_eq]
      constructor
      · intro hi
        subst hi
        exact ⟨List.isPrefixOf_iff_prefix.mp h, rfl, by intro k hk; omega⟩
      · intro hi
        exact hi.2.1.symm
    · simp only [indexOpt, h, List.drop_nil, List.length_nil, Nat.le_zero_eq]
      constructor
      · intro hi; simp at hi
      · intro hi
        exact absurd (List.isPrefixOf_iff_prefix.mpr hi.1) h
  | cons c cs ih =>
    intro i
    by_cases h : sub.isPrefixOf (c :: cs) = true
    · simp only [indexOpt, h, if_true, Option.some.injEq]
      constructor
      · intro hi
        subst hi
        exact ⟨List.isPrefixOf_iff_prefix.mp h, Nat.zero_le _, by intro k hk; omega⟩
      · intro hi
        rcases Nat.eq_zero_or_pos i with h0 | hpos
        · exact h0.symm
        · exact absurd (List.isPrefixOf_iff_prefix.mp h) (hi.2.2 0 hpos)
    · have hnp : ¬ sub <+: c :: cs := fun hp => h (List.isPrefixOf_iff_prefix.mpr hp)
      simp only [indexOpt, h, Bool.false_eq_true, if_false, Option.map_eq_some']
      constructor
      · rintro ⟨j, hj, rfl⟩
        obtain ⟨h1, h2, h3⟩ := (ih j).mp hj
        refine ⟨by simpa using h1, by simpa using h2, ?_⟩
        intro k hk
        cases k with
        | zero => simpa using hnp
        | succ k => simpa using h3 k (by omega)
      · rintro ⟨h1, h2, h3⟩
        cases i with
        | zero => exact absurd (by simpa using h1) hnp
        | succ j =>
          refine ⟨j, (ih j).mpr ⟨by simpa using h1, by simpa using h2, ?_⟩, rfl⟩
          intro k hk
          simpa using h3 (k + 1) (by omega)

theorem indexOpt_eq_none_iff (sub : Str) :
    ∀ s : Str, indexOpt sub s = none ↔ ¬ sub <:+: s := by
  intro s
  induction s with
  | nil =>
    by_cases h : sub.isPrefixOf [] = true
    · have hp : sub <+: [] := List.isPrefixOf_iff_prefix.mp h
      simp only [indexOpt, h, if_true]
      constructor
      · intro hi; simp at hi
      · intro hi; exact absurd hp.isInfix hi
    · simp only [indexOpt, h]
      constructor
      · intro _ hi
        have : sub = [] := by simpa using hi
        subst this
        exact h rfl
      · intro _; rfl
  | cons c cs ih =>
    by_cases h : sub.isPrefixOf (c :: cs) = true
    · have hp : sub <+: c :: cs := List.isPrefixOf_iff_prefix.mp h
      simp only [indexOpt, h, if_true]
      constructor
      · intro hi; simp at hi
      · intro hi; exact absurd hp.isInfix hi
    · have hnp : ¬ sub <+: c :: cs := fun hp => h (List.isPrefixOf_iff_prefix.mpr hp)
      simp only [indexOpt, h, Bool.false_eq_true, if_false, Option.map_eq_none', ih,
        List.infix_cons_iff]
      tauto

theorem Index_of_none {s sub : Str} (h : indexOpt sub s = none) : Index s sub = -1 := by
  simp [Index, h]

theorem Index_of_some {s sub : Str} {i : Nat} (h : indexOpt sub s = some i) :
    Index s sub = (i : Int) := by
  simp [Index, h]

/-- An instance found at `i` fits into the string. -/
theorem indexOpt_bound {s sub : Str} {i : Nat} (h : indexOpt sub s = some i) :
    i + sub.length ≤ s.length := by
  obtain ⟨h1, h2, _⟩ := (indexOpt_eq_some_iff sub s i).mp h
  have := h1.length_le
  simp only [List.length_drop] at this
  omega

/-- The string splits around the instance found at `i`. -/
theorem indexOpt_split {s sub : Str} {i : Nat} (h : indexOpt sub s = some i) :
    s = s.take i ++ sub ++ s.drop (i + sub.length) := by
  obtain ⟨h1, _, _⟩ := (indexOpt_eq_some_iff sub s i).mp h
  have h2 : sub ++ (s.drop i).drop sub.length = s.drop i := List.prefix_iff_eq_append.mp h1
  rw [List.drop_drop] at h2
  have h3 : s.take i ++ s.drop i = s := List.take_append_drop i s
  rw [List.append_assoc, h2, h3]

/-- Where the first instance starts, given a splitting at it. -/
theorem indexOpt_of_first {s sub p rest : Str} (hs : s = p ++ sub ++ rest)
    (hfirst : ∀ k < p.length, ¬ sub <+: s.drop k) : indexOpt sub s = some p.length := by
  apply (indexOpt_eq_some_iff sub s p.length).mpr
  refine ⟨?_, ?_, hfirst⟩
  · subst hs
    rw [List.append_assoc, List.drop_left]
    exact List.prefix_append _ _
  · subst hs
    simp only [List.length_append]
    omega

theorem slice_from {s : Str} {n : Nat} (h : n ≤ s.length) :
    slice s (n : Int) (s.length : Int) = some (s.drop n) := by
  have hc : (0 : Int) ≤ (n : Int) ∧ (n : Int) ≤ (s.length : Int) ∧
      (s.length : Int) ≤ (s.length : Int) := ⟨by omega, by omega, by omega⟩
  simp only [slice, hc, and_self, if_true, Int.toNat_ofNat, List.take_length]

theorem slice_mid {s : Str} {n j : Nat} (h : n + j ≤ s.length) :
    slice s (n : Int) ((n : Int) + (j : Int)) = some ((s.drop n).take j) := by
  have hc : (0 : Int) ≤ (n : Int) ∧ (n : Int) ≤ (n : Int) + (j : Int) ∧
      (n : Int) + (j : Int) ≤ (s.length : Int) := ⟨by omega, by omega, by omega⟩
  have ht : ((n : Int) + (j : Int)).toNat = n + j := by omega
  simp only [slice, hc, and_self, if_true, Int.toNat_ofNat, ht, List.drop_take,
    Nat.add_sub_cancel_left]

/-- The cut in terms of the two searches. -/
theorem cutWith_eq (source S E : Str) (e1 e2 : Outcome) (k : Str → Outcome) :
    cutWith source S E e1 e2 k =
      match indexOpt S source with
      | none => e1
      | some i =>
        match indexOpt E (source.drop (i + S.length)) with
        | none => e2
        | some j => k ((source.drop (i + S.length)).take j) := by
  unfold cutWith
  cases hS : indexOpt S source with
  | none => simp [Index_of_none hS]
  | some i =>
    have hb := indexOpt_bound hS
    have hpos : ¬ ((i : Int) < 0) := by omega
    have hsl : slice source ((i : Int) + (S.length : Int)) (source.length : Int)
        = some (source.drop (i + S.length)) := by
      have := slice_from hb
      rwa [Nat.cast_add] at this
    simp only [Index_of_some hS, hpos, if_false, hsl]
    cases hE : indexOpt E (source.drop (i + S.length)) with
    | none => simp [Index_of_none hE]
    | some j =>
      have hb2 := indexOpt_bound hE
      simp only [List.length_drop] at hb2
      have hpos2 : ¬ ((j : Int) < 0) := by omega
      have hsl2 : slice source ((i : Int) + (S.length : Int))
          ((i : Int) + (S.length : Int) + (j : Int))
          = some ((source.drop (i + S.length)).take j) := by
        have := slice_mid (s := source) (n := i + S.length) (j := j) (by omega)
        rwa [Nat.cast_add] at this
      simp only [Index_of_some hE, hpos2, if_false, hsl2]

theorem filter_Process_eq_cutWith (f : filter) (source : Str) :
    f.Process source = cutWith source f.ContentStart f.ContentEnd
      (.error (.contentStart f.ContentStart)) (.error (.contentEnd f.ContentEnd)) .ok := rfl

theorem drop_of_split {s p sub rest : Str} (hs : s = p ++ sub ++ rest) :
    s.drop (p.length + sub.length) = rest := by
  subst hs
  rw [← List.length_append, List.drop_left]

/-- No start marker: the cut yields `e1`. -/
theorem cutWith_noStart {source S : Str} (E : Str) (e1 e2 : Outcome) (k : Str → Outcome)
    (h : ¬ S <:+: source) : cutWith source S E e1 e2 k = e1 := by
  rw [cutWith_eq, (indexOpt_eq_none_iff S source).mpr h]

/-- A start marker but no end marker behind it: the cut yields `e2`. -/
theorem cutWith_noEnd {source S E p rest : Str} (e1 e2 : Outcome) (k : Str → Outcome)
    (hs : source = p ++ S ++ rest) (hfirst : ∀ i < p.length, ¬ S <+: source.drop i)
    (h : ¬ E <:+: rest) : cutWith source S E e1 e2 k = e2 := by
  rw [cutWith_eq, indexOpt_of_first hs hfirst]
  simp only [drop_of_split hs, (indexOpt_eq_none_iff E rest).mpr h]

/-- Both markers: the cut hands the text between them to `k`. -/
theorem cutWith_found {source S E p r q : Str} (e1 e2 : Outcome) (k : Str → Outcome)
    (hs : source = p ++ S ++ r ++ E ++ q) (hfirst : ∀ i < p.length, ¬ S <+: source.drop i)
    (hnext : ∀ i < r.length, ¬ E <+: (r ++ E ++ q).drop i) :
    cutWith source S E e1 e2 k = k r := by
  have hs2 : source = p ++ S ++ (r ++ E ++ q) := by simp [hs]
  rw [cutWith_eq, indexOpt_of_first hs2 hfirst]
  simp only [drop_of_split hs2, indexOpt_of_first (rfl : r ++ E ++ q = r ++ E ++ q) hnext]
  rw [List.append_assoc, List.take_left]

/-- The three ways a cut can go. -/
theorem cutWith_cases (source S E : Str) (e1 e2 : Outcome) (k : Str → Outcome) :
    (¬ S <:+: source ∧ cutWith source S E e1 e2 k = e1) ∨
    (∃ p rest, source = p ++ S ++ rest ∧ (∀ i < p.length, ¬ S <+: source.drop i) ∧
      ¬ E <:+: rest ∧ cutWith source S E e1 e2 k = e2) ∨
    (∃ p r q, source = p ++ S ++ r ++ E ++ q ∧ (∀ i < p.length, ¬ S <+: source.drop i) ∧
      (∀ i < r.length, ¬ E <+: (r ++ E ++ q).drop i) ∧ cutWith source S E e1 e2 k = k r) := by
  cases hS : indexOpt S source with
  | none =>
    have hn := (indexOpt_eq_none_iff S source).mp hS
    exact Or.inl ⟨hn, cutWith_noStart E e1 e2 k hn⟩
  | some i =>
    right
    obtain ⟨_, hi, hfirst⟩ := (indexOpt_eq_some_iff S source i).mp hS
    have hsplit := indexOpt_split hS
    have hlen : (source.take i).length = i := by simp [List.length_take, hi]
    have hfirst2 : ∀ j < (source.take i).length, ¬ S <+: source.drop j := by
      rw [hlen]; exact hfirst
    cases hE : indexOpt E (source.drop (i + S.length)) with
    | none =>
      have hn := (indexOpt_eq_none_iff E _).mp hE
      exact Or.inl ⟨source.take i, source.drop (i + S.length), hsplit, hfirst2, hn,
        cutWith_noEnd e1 e2 k hsplit hfirst2 hn⟩
    | some j =>
      right
      obtain ⟨_, hj, hnext⟩ := (indexOpt_eq_some_iff E _ j).mp hE
      have hsplitE := indexOpt_split hE
      have hlenr : ((source.drop (i + S.length)).take j).length = j := by
        rw [List.length_take]; omega
      have hnext2 : ∀ m < ((source.drop (i + S.length)).take j).length,
          ¬ E <+: ((source.drop (i + S.length)).take j ++ E ++
            (source.drop (i + S.length)).drop (j + E.length)).drop m := by
        rw [hlenr, ← hsplitE]; exact hnext
      have hs : source = source.take i ++ S ++ (source.drop (i + S.length)).take j ++ E ++
          (source.drop (i + S.length)).drop (j + E.length) := by
        calc source = source.take i ++ S ++ source.drop (i + S.length) := hsplit
          _ = source.take i ++ S ++ ((source.drop (i + S.length)).take j ++ E ++
                (source.drop (i + S.length)).drop (j + E.length)) := by rw [← hsplitE]
          _ = _ := by simp only [List.append_assoc]
      exact ⟨_, _, _, hs, hfirst2, hnext2, cutWith_found e1 e2 k hs hfirst2 hnext2⟩

/-! ## The boundary extractor -/

/-- C1. When the start marker `S` occurs in the text `T` (first at the end of the
prefix `p`) and the end marker `E` occurs in the text `rest` behind that first
`S`, `filter.Process` returns normally, and the string `r` it returns satisfies
`T = p ++ S ++ r ++ E ++ q` with `r ++ E` ending at the first instance of `E`
behind the start marker: `r` is the text strictly between the two markers. -/
theorem filter_Process_between (T S E p rest : Str) (hT : T = p ++ S ++ rest)
    (hfirst : ∀ i < p.length, ¬ S <+: T.drop i) (hE : E <:+: rest) :
    ∃ r q, filter.Process ⟨S, E⟩ T = .ok r ∧ T = p ++ S ++ r ++ E ++ q ∧
      ∀ i < r.length, ¬ E <+: (r ++ E ++ q).drop i := by
  have hp := indexOpt_of_first hT hfirst
  rcases cutWith_cases T S E (.error (.contentStart S)) (.error (.contentEnd E)) .ok with
    ⟨hn, _⟩ | ⟨p2, rest2, hs2, hf2, hn, _⟩ | ⟨p2, r, q, hs2, hf2, hnext, hres⟩
  · exact absurd ⟨p, rest, hT.symm⟩ hn
  · have hp2 := indexOpt_of_first hs2 hf2
    have hlen : p2.length = p.length := by rw [hp] at hp2; exact (Option.some.inj hp2).symm
    have hrest : rest2 = rest := by
      rw [← drop_of_split hs2, ← drop_of_split hT, hlen]
    exact absurd (hrest ▸ hE) hn
  · have hs3 : T = p2 ++ S ++ (r ++ E ++ q) := by simp [hs2]
    have hp2 := indexOpt_of_first hs3 hf2
    have hlen : p2.length = p.length := by rw [hp] at hp2; exact (Option.some.inj hp2).symm
    have hpp : p2 = p := by
      have h1 : T.take p2.length = p2 := by rw [hs3, List.append_assoc, List.take_left]
      have h2 : T.take p.length = p := by rw [hT, List.append_assoc, List.take_left]
      rw [← h1, ← h2, hlen]
    exact ⟨r, q, hres, hpp ▸ hs2, hnext⟩

theorem filter_Process_between_witness :
    ∃ r q, filter.Process ⟨bytes "<t>", bytes "</t>"⟩ (bytes "x<t>hello</t>y<t>z</t>") = .ok r ∧
      bytes "x<t>hello</t>y<t>z</t>" = bytes "x" ++ bytes "<t>" ++ r ++ bytes "</t>" ++ q ∧
      ∀ i < r.length, ¬ bytes "</t>" <+: (r ++ bytes "</t>" ++ q).drop i :=
  filter_Process_between (bytes "x<t>hello</t>y<t>z</t>") (bytes "<t>") (bytes "</t>")
    (bytes "x") (bytes "hello</t>y<t>z</t>") (by decide) (by decide) (by decide)

/-- C2. `filter.Process` returns the start-not-found error exactly when the
start marker `S` does not occur in `T`, and the end-not-found error exactly
when `S` occurs and the end marker `E` does not occur in the text behind the
first instance of `S`; in particular it returns the end-not-found error when
every instance of `E` in `T` starts before the first instance of `S`. -/
theorem filter_Process_errors (T S E : Str) :
    (filter.Process ⟨S, E⟩ T = .error (.contentStart S) ↔ ¬ S <:+: T) ∧
    (filter.Process ⟨S, E⟩ T = .error (.contentEnd E) ↔
      ∃ p rest, T = p ++ S ++ rest ∧ (∀ i < p.length, ¬ S <+: T.drop i) ∧ ¬ E <:+: rest) ∧
    (∀ p rest, T = p ++ S ++ rest → (∀ i < p.length, ¬ S <+: T.drop i) →
      (∀ i, E <+: T.drop i → i < p.length) →
      filter.Process ⟨S, E⟩ T = .error (.contentEnd E)) := by
  have hnoEnd : ∀ p rest, T = p ++ S ++ rest → (∀ i < p.length, ¬ S <+: T.drop i) →
      ¬ E <:+: rest → filter.Process ⟨S, E⟩ T = .error (.contentEnd E) :=
    fun p rest hs hf hn => cutWith_noEnd _ _ _ hs hf hn
  refine ⟨?_, ?_, ?_⟩
  · rcases cutWith_cases T S E (.error (.contentStart S)) (.error (.contentEnd E)) .ok with
      ⟨hn, hres⟩ | ⟨p, rest, hs, _, _, hres⟩ | ⟨p, r, q, hs, _, _, hres⟩
    · exact ⟨fun _ => hn, fun _ => hres⟩
    · have hin : S <:+: T := ⟨p, rest, hs.symm⟩
      constructor
      · intro h
        rw [show filter.Process ⟨S, E⟩ T = _ from hres] at h
        simp at h
      · intro h; exact absurd hin h
    · have hin : S <:+: T := ⟨p, r ++ E ++ q, by simp [hs]⟩
      constructor
      · intro h
        rw [show filter.Process ⟨S, E⟩ T = _ from hres] at h
        simp at h
      · intro h; exact absurd hin h
  · constructor
    · intro h
      rcases cutWith_cases T S E (.error (.contentStart S)) (.error (.contentEnd E)) .ok with
        ⟨_, hres⟩ | ⟨p, rest, hs, hf, hn, _⟩ | ⟨p, r, q, _, _, _, hres⟩
      · rw [show filter.Process ⟨S, E⟩ T = _ from hres] at h
        simp at h
      · exact ⟨p, rest, hs, hf, hn⟩
      · rw [show filter.Process ⟨S, E⟩ T = _ from hres] at h
        simp at h
    · rintro ⟨p, rest, hs, hf, hn⟩
      exact hnoEnd p rest hs hf hn
  · intro p rest hs hf hbefore
    apply hnoEnd p rest hs hf
    rintro ⟨a, b, hab⟩
    have hpre : E <+: T.drop (p.length + S.length + a.length) := by
      refine ⟨b, ?_⟩
      rw [hs, ← hab]
      have : p ++ S ++ (a ++ E ++ b) = (p ++ S ++ a) ++ (E ++ b) := by
        simp only [List.append_assoc]
      rw [this, ← List.length_append, ← List.length_append, List.drop_left]
    have := hbefore _ hpre
    omega

/-! ## The markup stripper -/

theorem foldl_fmtStep_buff (s : Str) :
    ∀ st : fmtState, (s.foldl fmtStep st).buff = st.buff ++ stripScan st.escape s := by
  induction s with
  | nil => intro st; simp [stripScan]
  | cons c cs ih =>
    intro st
    rw [List.foldl_cons, ih]
    by_cases h60 : c = 60
    · subst h60
      simp [fmtStep, stripScan]
    · by_cases h62 : c = 62
      · subst h62
        cases hesc : st.escape <;> simp [fmtStep, stripScan, hesc]
      · cases hesc : st.escape <;> simp [fmtStep, stripScan, hesc, h60, h62]

/-- C3. `formatter.Process` never returns an error, and what it returns is the
scan of the specification started with the inside-tag flag clear; in
particular `a<b>c</b>d` gives `acd`, `no tags` is unchanged and
`a<unterminated` gives `a`. -/
theorem formatter_Process_scan :
    (∀ source : Str, formatter.Process source = .ok (stripScan false source)) ∧
    formatter.Process (bytes "a<b>c</b>d") = .ok (bytes "acd") ∧
    formatter.Process (bytes "no tags") = .ok (bytes "no tags") ∧
    formatter.Process (bytes "a<unterminated") = .ok (bytes "a") := by
  refine ⟨?_, by decide, by decide, by decide⟩
  intro source
  simp [formatter.Process, foldl_fmtStep_buff]

/-! ## Searching for and splitting on a single byte -/

theorem indexOpt_single_nil (c : Byte) : indexOpt [c] [] = none := by
  simp [indexOpt, List.isPrefixOf]

theorem indexOpt_single_cons (c x : Byte) (xs : Str) :
    indexOpt [c] (x :: xs) = if c = x then some 0 else (indexOpt [c] xs).map (· + 1) := by
  simp [indexOpt, List.isPrefixOf]

theorem indexOpt_single_of_not_mem {c : Byte} :
    ∀ {s : Str}, c ∉ s → indexOpt [c] s = none := by
  intro s
  induction s with
  | nil => intro _; exact indexOpt_single_nil c
  | cons x xs ih =>
    intro h
    have hx : c ≠ x := fun e => h (e ▸ List.mem_cons_self _ _)
    have hxs : c ∉ xs := fun e => h (List.mem_cons_of_mem _ e)
    simp [indexOpt_single_cons, hx, ih hxs]

theorem indexOpt_single_append {c : Byte} (after : Str) :
    ∀ {before : Str}, c ∉ before →
      indexOpt [c] (before ++ c :: after) = some before.length := by
  intro before
  induction before with
  | nil => intro _; simp [indexOpt_single_cons]
  | cons x xs ih =>
    intro h
    have hx : c ≠ x := fun e => h (e ▸ List.mem_cons_self _ _)
    have hxs : c ∉ xs := fun e => h (List.mem_cons_of_mem _ e)
    simp [indexOpt_single_cons, hx, ih hxs]

theorem indexOpt_single_some {c : Byte} :
    ∀ {s : Str} {m : Nat}, indexOpt [c] s = some m →
      c ∉ s.take m ∧ s = s.take m ++ c :: s.drop (m + 1) := by
  intro s
  induction s with
  | nil => intro m h; simp [indexOpt_single_nil] at h
  | cons x xs ih =>
    intro m h
    rw [indexOpt_single_cons] at h
    by_cases hx : c = x
    · simp only [hx, if_true, Option.some.injEq] at h
      subst h
      simp [hx]
    · simp only [hx, if_false, Option.map_eq_some'] at h
      obtain ⟨j, hj, rfl⟩ := h
      obtain ⟨h1, h2⟩ := ih hj
      refine ⟨?_, ?_⟩
      · simp only [List.take_succ_cons, List.mem_cons, not_or]
        exact ⟨hx, h1⟩
      · simp only [List.take_succ_cons, List.drop_succ_cons, List.cons_append]
        exact congrArg (x :: ·) h2

theorem splitLoop_single_of_not_mem {c : Byte} {s : Str} (h : c ∉ s) (fuel : Nat) :
    splitLoop [c] fuel s = [s] := by
  cases fuel with
  | zero => rfl
  | succ n => simp [splitLoop, indexOpt_single_of_not_mem h]

/-- With enough fuel the loop yields one part more than there are separators. -/
theorem splitLoop_single_length (c : Byte) :
    ∀ (fuel : Nat) (s : Str), s.length ≤ fuel →
      (splitLoop [c] fuel s).length = s.count c + 1 := by
  intro fuel
  induction fuel with
  | zero =>
    intro s hs
    have : s = [] := List.length_eq_zero.mp (Nat.le_zero.mp hs)
    subst this
    simp [splitLoop]
  | succ n ih =>
    intro s hs
    cases hm : indexOpt [c] s with
    | none =>
      have hnot : c ∉ s := by
        intro hc
        obtain ⟨a, b, rfl⟩ := List.append_of_mem hc
        exact (indexOpt_eq_none_iff [c] _).mp hm ⟨a, b, by simp⟩
      simp [splitLoop, hm, List.count_eq_zero.mpr hnot]
    | some m =>
      obtain ⟨h1, h2⟩ := indexOpt_single_some hm
      have hb := indexOpt_bound hm
      simp only [List.length_singleton] at hb
      have hlen : (s.drop (m + 1)).length ≤ n := by
        rw [List.length_drop]; omega
      have hcount : s.count c = (s.drop (m + 1)).count c + 1 := by
        conv_lhs => rw [h2]
        simp [List.count_append, List.count_eq_zero.mpr h1]
      have hstep : splitLoop [c] (n + 1) s = s.take m :: splitLoop [c] n (s.drop (m + 1)) := by
        simp [splitLoop, hm]
      rw [hstep, List.length_cons, ih _ hlen, hcount]

theorem Split_bar_length (pattern : Str) (h : bytes "|" ≠ []) :
    (Split pattern (bytes "|") h).length = pattern.count 124 + 1 :=
  splitLoop_single_length 124 pattern.length pattern (Nat.le_refl _)

/-- A pattern with exactly one bar splits into its two halves. -/
theorem Split_bar_pair {before after : Str} (hb : (124 : Byte) ∉ before)
    (ha : (124 : Byte) ∉ after) (h : bytes "|" ≠ []) :
    Split (before ++ bytes "|" ++ after) (bytes "|") h = [before, after] := by
  have hlen : (before ++ bytes "|" ++ after).length = (before.length + after.length) + 1 := by
    simp [bytes]; omega
  have hidx : indexOpt [124] (before ++ 124 :: after) = some before.length :=
    indexOpt_single_append after hb
  have hbar : bytes "|" = [124] := rfl
  unfold Split
  rw [hlen, hbar]
  have happ : before ++ [124] ++ after = before ++ 124 :: after := by simp
  rw [happ]
  simp only [splitLoop, hidx, List.take_left, List.length_singleton]
  have hdrop : (before ++ 124 :: after).drop (before.length + 1) = after := by
    have hsplit : before ++ 124 :: after = (before ++ [124]) ++ after := by simp
    rw [hsplit]
    exact List.drop_left' (by simp)
  rw [hdrop, splitLoop_single_of_not_mem ha]

theorem lastIndexOpt_single_cons (c x : Byte) (xs : Str) :
    lastIndexOpt [c] (x :: xs) =
      match lastIndexOpt [c] xs with
      | some i => some (i + 1)
      | none => if c = x then some 0 else none := by
  simp [lastIndexOpt, List.isPrefixOf]

theorem lastIndexOpt_single_of_not_mem {c : Byte} :
    ∀ {s : Str}, c ∉ s → lastIndexOpt [c] s = none := by
  intro s
  induction s with
  | nil => intro _; simp [lastIndexOpt, List.isPrefixOf]
  | cons x xs ih =>
    intro h
    have hx : c ≠ x := fun e => h (e ▸ List.mem_cons_self _ _)
    have hxs : c ∉ xs := fun e => h (List.mem_cons_of_mem _ e)
    simp [lastIndexOpt_single_cons, hx, ih hxs]

theorem lastIndexOpt_single_append {c : Byte} {file : Str} (hf : c ∉ file) :
    ∀ dir : Str, lastIndexOpt [c] (dir ++ c :: file) = some dir.length := by
  intro dir
  induction dir with
  | nil => simp [lastIndexOpt_single_cons, lastIndexOpt_single_of_not_mem hf]
  | cons x xs ih => simp [lastIndexOpt_single_cons, ih]

/-- A string containing the byte `c` splits at its last `c`. -/
theorem exists_last_split {c : Byte} :
    ∀ {s : Str}, c ∈ s → ∃ dir file, s = dir ++ c :: file ∧ c ∉ file := by
  intro s
  induction s with
  | nil => intro h; simp at h
  | cons x xs ih =>
    intro h
    by_cases hxs : c ∈ xs
    · obtain ⟨dir, file, hs, hf⟩ := ih hxs
      exact ⟨x :: dir, file, by simp [hs], hf⟩
    · have hx : c = x := by
        rcases List.mem_cons.mp h with e | e
        · exact e
        · exact absurd e hxs
      exact ⟨[], xs, by simp [hx], hxs⟩

theorem slice_to {s : Str} {n : Nat} (h : n ≤ s.length) :
    slice s 0 (n : Int) = some (s.take n) := by
  have hc : (0 : Int) ≤ 0 ∧ (0 : Int) ≤ (n : Int) ∧ (n : Int) ≤ (s.length : Int) :=
    ⟨by omega, by omega, by omega⟩
  simp only [slice, hc, and_self, if_true, Int.toNat_ofNat, Int.toNat_zero, List.drop_zero]

/-! ## The next-link resolver -/

theorem isPrefixOf_false {a b : Str} (h : ¬ a <+: b) : a.isPrefixOf b = false := by
  cases hb : a.isPrefixOf b with
  | false => rfl
  | true => exact absurd (List.isPrefixOf_iff_prefix.mp hb) h

theorem resolve_http (hostname : Str → Option Str) (u : urlParser) {tok : Str}
    (h : bytes "http" <+: tok) : urlParser.resolve hostname u tok = .ok tok := by
  simp [urlParser.resolve, HasPrefix, List.isPrefixOf_iff_prefix.mpr h]

theorem resolve_host (hostname : Str → Option Str) (u : urlParser) {tok host : Str}
    (hh : ¬ bytes "http" <+: tok) (hs : bytes "/" <+: tok)
    (hhost : hostname u.BaseUrl = some host) :
    urlParser.resolve hostname u tok = .ok (host ++ tok) := by
  have h1 : (bytes "http").isPrefixOf tok = false :=
    isPrefixOf_false hh
  simp [urlParser.resolve, HasPrefix, h1, List.isPrefixOf_iff_prefix.mpr hs, hhost]

theorem resolve_path_error (hostname : Str → Option Str) (u : urlParser) {tok : Str}
    (hh : ¬ bytes "http" <+: tok) (hs : ¬ bytes "/" <+: tok)
    (hbase : u.BaseUrl = [] ∨ (47 : Byte) ∉ u.BaseUrl) :
    urlParser.resolve hostname u tok = .error (.baseUrl u.BaseUrl) := by
  have h1 : (bytes "http").isPrefixOf tok = false :=
    isPrefixOf_false hh
  have h2 : (bytes "/").isPrefixOf tok = false :=
    isPrefixOf_false hs
  have hcond : u.BaseUrl.length = 0 ∨ Index u.BaseUrl (bytes "/") < 0 := by
    rcases hbase with h | h
    · left; simp [h]
    · right
      have : indexOpt (bytes "/") u.BaseUrl = none := indexOpt_single_of_not_mem h
      rw [Index_of_none this]; decide
  simp only [urlParser.resolve, HasPrefix, h1, h2, Bool.false_eq_true, if_false, hcond, if_true]

theorem resolve_path_ok (hostname : Str → Option Str) (u : urlParser) {tok dir file : Str}
    (hh : ¬ bytes "http" <+: tok) (hs : ¬ bytes "/" <+: tok)
    (hbase : u.BaseUrl = dir ++ bytes "/" ++ file) (hfile : (47 : Byte) ∉ file) :
    urlParser.resolve hostname u tok = .ok (dir ++ bytes "/" ++ tok) := by
  have h1 : (bytes "http").isPrefixOf tok = false :=
    isPrefixOf_false hh
  have h2 : (bytes "/").isPrefixOf tok = false :=
    isPrefixOf_false hs
  have hb : u.BaseUrl = dir ++ 47 :: file := by
    rw [hbase]; show dir ++ [47] ++ file = _; simp
  have hmem : (47 : Byte) ∈ u.BaseUrl := by rw [hb]; simp
  have hcond : ¬ (u.BaseUrl.length = 0 ∨ Index u.BaseUrl (bytes "/") < 0) := by
    rintro (h | h)
    · rw [List.length_eq_zero.mp h] at hmem; simp at hmem
    · cases hi : indexOpt (bytes "/") u.BaseUrl with
      | none =>
        obtain ⟨a, b, hab⟩ := List.append_of_mem hmem
        exact (indexOpt_eq_none_iff _ _).mp hi ⟨a, b, by rw [hab]; show a ++ [47] ++ b = _; simp⟩
      | some i => rw [Index_of_some hi] at h; omega
  have hlast : LastIndex u.BaseUrl (bytes "/") = (dir.length : Int) := by
    have : lastIndexOpt (bytes "/") u.BaseUrl = some dir.length := by
      rw [hb]; exact lastIndexOpt_single_append hfile dir
    simp [LastIndex, this]
  have hsl : slice u.BaseUrl 0 (dir.length : Int) = some dir := by
    rw [slice_to (by rw [hb]; simp), hb, List.take_left]
  simp only [urlParser.resolve, HasPrefix, h1, h2, Bool.false_eq_true, if_false, hcond, hlast,
    hsl]

/-- With a pattern `before|after` whose halves hold no bar, `urlParser.Process`
is the cut between `before` and `after` followed by the resolution. -/
theorem urlParser_Process_eq_cutWith (hostname : Str → Option Str) (base before after : Str)
    (hb : (124 : Byte) ∉ before) (ha : (124 : Byte) ∉ after) (source : Str) :
    urlParser.Process hostname ⟨base, before ++ bytes "|" ++ after⟩ source =
      cutWith source before after (.error (.urlStart before)) (.error (.urlEnd after))
        (urlParser.resolve hostname ⟨base, before ++ bytes "|" ++ after⟩) := by
  unfold urlParser.Process
  simp only [Split_bar_pair hb ha]
  rfl

theorem resolve_ne_patternSplit (hostname : Str → Option Str) (u : urlParser) (tok : Str) :
    urlParser.resolve hostname u tok ≠ .error .patternSplit := by
  unfold urlParser.resolve
  split_ifs
  · simp
  · split <;> simp
  · simp
  · split <;> simp

/-- When the pattern splits into two parts, `urlParser.Process` is the cut
between them followed by the resolution. -/
theorem urlParser_Process_of_split (hostname : Str → Option Str) (u : urlParser)
    (source : Str) {a b : Str} (h : Split u.UrlPattern (bytes "|") (by decide) = [a, b]) :
    urlParser.Process hostname u source =
      cutWith source a b (.error (.urlStart a)) (.error (.urlEnd b))
        (urlParser.resolve hostname u) := by
  unfold urlParser.Process
  simp only [h]
  rfl

/-- When the pattern does not split into two parts, `urlParser.Process`
returns the pattern error. -/
theorem urlParser_Process_of_not_split (hostname : Str → Option Str) (u : urlParser)
    (source : Str) (h : ∀ a b, Split u.UrlPattern (bytes "|") (by decide) ≠ [a, b]) :
    urlParser.Process hostname u source = .error .patternSplit := by
  unfold urlParser.Process
  split
  · next a b hab => exact absurd hab (h a b)
  · rfl

/-- C4. With a pattern `before|after`, a page whose token `tok` lies between the
first `before` and the next `after` and starts with neither `http` nor `/`,
and a base URL containing a `/`, `urlParser.Process` returns the base URL with
everything behind its last `/` replaced by the token: `dir ++ "/" ++ tok` where
the base URL is `dir ++ "/" ++ file` and `file` holds no `/`. -/
theorem urlParser_Process_path_relative (hostname : Str → Option Str)
    (page base before after p tok q : Str)
    (hb : (124 : Byte) ∉ before) (ha : (124 : Byte) ∉ after)
    (hpage : page = p ++ before ++ tok ++ after ++ q)
    (hfirst : ∀ i < p.length, ¬ before <+: page.drop i)
    (hnext : ∀ i < tok.length, ¬ after <+: (tok ++ after ++ q).drop i)
    (hhttp : ¬ bytes "http" <+: tok) (hslash : ¬ bytes "/" <+: tok)
    (hbase : (47 : Byte) ∈ base) :
    ∃ dir file, base = dir ++ bytes "/" ++ file ∧ (47 : Byte) ∉ file ∧
      urlParser.Process hostname ⟨base, before ++ bytes "|" ++ after⟩ page =
        .ok (dir ++ bytes "/" ++ tok) := by
  obtain ⟨dir, file, hsplit, hfile⟩ := exists_last_split hbase
  have hbase2 : base = dir ++ bytes "/" ++ file := by
    rw [hsplit]; show _ = dir ++ [47] ++ file; simp
  refine ⟨dir, file, hbase2, hfile, ?_⟩
  rw [urlParser_Process_eq_cutWith hostname base before after hb ha,
    cutWith_found _ _ _ hpage hfirst hnext]
  exact resolve_path_ok hostname _ hhttp hslash hbase2 hfile

theorem urlParser_Process_path_relative_witness :
    (∃ dir file, bytes "http://site.com/book/1.html" = dir ++ bytes "/" ++ file ∧
      (47 : Byte) ∉ file ∧
      urlParser.Process simpleHostname
        ⟨bytes "http://site.com/book/1.html", bytes "href=\"" ++ bytes "|" ++ bytes "\""⟩
        (bytes "<a href=\"2.html\">next</a>") = .ok (dir ++ bytes "/" ++ bytes "2.html")) ∧
    urlParser.Process simpleHostname ⟨bytes "http://site.com/book/1.html", bytes "href=\"|\""⟩
      (bytes "<a href=\"2.html\">next</a>") = .ok (bytes "http://site.com/book/2.html") :=
  ⟨urlParser_Process_path_relative simpleHostname (bytes "<a href=\"2.html\">next</a>")
      (bytes "http://site.com/book/1.html") (bytes "href=\"") (bytes "\"")
      (bytes "<a ") (bytes "2.html") (bytes ">next</a>")
      (by decide) (by decide) (by decide) (by decide) (by decide) (by decide) (by decide)
      (by decide),
    by decide⟩

/-- C5. With a pattern `before|after` and a page whose token `tok` lies between
the first `before` and the next `after` and starts with `http`,
`urlParser.Process` returns the token unchanged, whatever the base URL and
whatever the host-name lookup does. -/
theorem urlParser_Process_absolute (hostname : Str → Option Str)
    (page base before after p tok q : Str)
    (hb : (124 : Byte) ∉ before) (ha : (124 : Byte) ∉ after)
    (hpage : page = p ++ before ++ tok ++ after ++ q)
    (hfirst : ∀ i < p.length, ¬ before <+: page.drop i)
    (hnext : ∀ i < tok.length, ¬ after <+: (tok ++ after ++ q).drop i)
    (hhttp : bytes "http" <+: tok) :
    urlParser.Process hostname ⟨base, before ++ bytes "|" ++ after⟩ page = .ok tok := by
  rw [urlParser_Process_eq_cutWith hostname base before after hb ha,
    cutWith_found _ _ _ hpage hfirst hnext]
  exact resolve_http hostname _ hhttp

theorem urlParser_Process_absolute_witness :
    urlParser.Process (fun _ => none) ⟨[], bytes "href=\"" ++ bytes "|" ++ bytes "\""⟩
      (bytes "<a href=\"http://b.org/2\">next</a>") = .ok (bytes "http://b.org/2") :=
  urlParser_Process_absolute (fun _ => none) (bytes "<a href=\"http://b.org/2\">next</a>")
    [] (bytes "href=\"") (bytes "\"") (bytes "<a ") (bytes "http://b.org/2")
    (bytes ">next</a>")
    (by decide) (by decide) (by decide) (by decide) (by decide) (by decide)

/-- C6. With a pattern `before|after`, a page whose token `tok` lies between the
first `before` and the next `after` and starts with `/`, and a base URL that
parses with host name `host`, `urlParser.Process` returns `host ++ tok`. -/
theorem urlParser_Process_host_relative (hostname : Str → Option Str)
    (page base before after p tok q host : Str)
    (hb : (124 : Byte) ∉ before) (ha : (124 : Byte) ∉ after)
    (hpage : page = p ++ before ++ tok ++ after ++ q)
    (hfirst : ∀ i < p.length, ¬ before <+: page.drop i)
    (hnext : ∀ i < tok.length, ¬ after <+: (tok ++ after ++ q).drop i)
    (hslash : bytes "/" <+: tok) (hhost : hostname base = some host) :
    urlParser.Process hostname ⟨base, before ++ bytes "|" ++ after⟩ page =
      .ok (host ++ tok) := by
  have hhttp : ¬ bytes "http" <+: tok := by
    rintro ⟨t, ht⟩
    obtain ⟨t2, ht2⟩ := hslash
    rw [← ht] at ht2
    have hne : bytes "/" ++ t2 ≠ bytes "http" ++ t := by
      show (47 : Byte) :: t2 ≠ 104 :: _
      intro e
      exact absurd (List.cons.inj e).1 (by decide)
    exact hne ht2
  rw [urlParser_Process_eq_cutWith hostname base before after hb ha,
    cutWith_found _ _ _ hpage hfirst hnext]
  exact resolve_host hostname _ hhttp hslash hhost

theorem urlParser_Process_host_relative_witness :
    urlParser.Process simpleHostname
      ⟨bytes "http://site.com/book/1.html", bytes "href=\"" ++ bytes "|" ++ bytes "\""⟩
      (bytes "<a href=\"/chapter/2\">next</a>") =
      .ok (bytes "site.com" ++ bytes "/chapter/2") :=
  urlParser_Process_host_relative simpleHostname (bytes "<a href=\"/chapter/2\">next</a>")
    (bytes "http://site.com/book/1.html") (bytes "href=\"") (bytes "\"")
    (bytes "<a ") (bytes "/chapter/2") (bytes ">next</a>") (bytes "site.com")
    (by decide) (by decide) (by decide) (by decide) (by decide) (by decide) (by decide)

/-- C7. Whenever the pattern holds no `|` or more than one `|`,
`urlParser.Process` returns the pattern error, whatever the page and the base
URL. -/
theorem urlParser_Process_bar_count (hostname : Str → Option Str) (u : urlParser)
    (page : Str) (h : u.UrlPattern.count 124 ≠ 1) :
    urlParser.Process hostname u page = .error .patternSplit := by
  apply urlParser_Process_of_not_split
  intro a b hab
  have hlen := Split_bar_length u.UrlPattern (by decide)
  rw [hab] at hlen
  simp only [List.length_cons, List.length_nil] at hlen
  omega

theorem urlParser_Process_bar_count_witness :
    urlParser.Process simpleHostname ⟨bytes "http://site.com/book/1.html", bytes "href="⟩
        (bytes "<a href=\"2.html\">next</a>") = .error .patternSplit ∧
      urlParser.Process simpleHostname ⟨bytes "http://site.com/book/1.html", bytes "a|b|c"⟩
        (bytes "a2.htmlb") = .error .patternSplit :=
  ⟨urlParser_Process_bar_count simpleHostname _ _ (by decide),
    urlParser_Process_bar_count simpleHostname _ _ (by decide)⟩

/-- C8, as the code has it: the patterns `|`, `|"` and `href="|`, each with an
empty half, are not rejected; `urlParser.Process` returns a URL for them. -/
theorem urlParser_Process_empty_half_accepted :
    Split (bytes "|") (bytes "|") (by decide) = [[], []] ∧
    urlParser.Process simpleHostname ⟨bytes "http://site.com/book/1.html", bytes "|"⟩
      (bytes "<a href=\"2.html\">next</a>") = .ok (bytes "http://site.com/book/") ∧
    Split (bytes "|\"") (bytes "|") (by decide) = [[], bytes "\""] ∧
    urlParser.Process simpleHostname ⟨bytes "http://site.com/book/1.html", bytes "|\""⟩
      (bytes "<a href=\"2.html\">next</a>") = .ok (bytes "http://site.com/book/<a href=") ∧
    Split (bytes "href=\"|") (bytes "|") (by decide) = [bytes "href=\"", []] ∧
    urlParser.Process simpleHostname ⟨bytes "http://site.com/book/1.html", bytes "href=\"|"⟩
      (bytes "<a href=\"2.html\">next</a>") = .ok (bytes "http://site.com/book/") := by
  decide

/-- C8, amended. `urlParser.Process` returns the pattern error exactly when
splitting the pattern on `|` does not yield two parts; a pattern with exactly
one `|` is never rejected, also when one or both of its halves are empty. -/
theorem urlParser_Process_pattern_error_iff :
    (∀ (hostname : Str → Option Str) (u : urlParser) (page : Str),
      urlParser.Process hostname u page = .error .patternSplit ↔
        (Split u.UrlPattern (bytes "|") (by decide)).length ≠ 2) ∧
    (∀ (hostname : Str → Option Str) (base before after page : Str),
      (124 : Byte) ∉ before → (124 : Byte) ∉ after →
      urlParser.Process hostname ⟨base, before ++ bytes "|" ++ after⟩ page ≠
        .error .patternSplit) := by
  have key : ∀ (hostname : Str → Option Str) (u : urlParser) (page : Str) (a b : Str),
      Split u.UrlPattern (bytes "|") (by decide) = [a, b] →
      urlParser.Process hostname u page ≠ .error .patternSplit := by
    intro hostname u page a b hab
    rw [urlParser_Process_of_split hostname u page hab]
    rcases cutWith_cases page a b (.error (.urlStart a)) (.error (.urlEnd b))
        (urlParser.resolve hostname u) with
      ⟨_, hres⟩ | ⟨_, _, _, _, _, hres⟩ | ⟨_, r, _, _, _, _, hres⟩
    · rw [hres]; simp
    · rw [hres]; simp
    · rw [hres]; exact resolve_ne_patternSplit hostname u r
  refine ⟨?_, ?_⟩
  · intro hostname u page
    constructor
    · intro h hlen
      obtain ⟨a, b, hab⟩ := List.length_eq_two.mp hlen
      exact key hostname u page a b hab h
    · intro hlen
      apply urlParser_Process_of_not_split
      intro a b hab
      exact hlen (by rw [hab]; rfl)
  · intro hostname base before after page hb ha
    exact key hostname _ page before after (Split_bar_pair hb ha _)

/-- C9. With a pattern `before|after`: `urlParser.Process` returns the
start-of-pattern error when `before` does not occur in the page, the
end-of-pattern error when `before` occurs and `after` does not occur in the
text behind the first `before`, and otherwise resolves the token `tok`, the
text between the first `before` and the first `after` behind it. -/
theorem urlParser_Process_token (hostname : Str → Option Str) (page base before after : Str)
    (hb : (124 : Byte) ∉ before) (ha : (124 : Byte) ∉ after) :
    (¬ before <:+: page →
      urlParser.Process hostname ⟨base, before ++ bytes "|" ++ after⟩ page =
        .error (.urlStart before)) ∧
    (∀ p rest, page = p ++ before ++ rest → (∀ i < p.length, ¬ before <+: page.drop i) →
      ¬ after <:+: rest →
      urlParser.Process hostname ⟨base, before ++ bytes "|" ++ after⟩ page =
        .error (.urlEnd after)) ∧
    (∀ p rest, page = p ++ before ++ rest → (∀ i < p.length, ¬ before <+: page.drop i) →
      after <:+: rest →
      ∃ tok q, rest = tok ++ after ++ q ∧
        (∀ i < tok.length, ¬ after <+: (tok ++ after ++ q).drop i) ∧
        urlParser.Process hostname ⟨base, before ++ bytes "|" ++ after⟩ page =
          urlParser.resolve hostname ⟨base, before ++ bytes "|" ++ after⟩ tok) := by
  refine ⟨?_, ?_, ?_⟩
  · intro h
    rw [urlParser_Process_eq_cutWith hostname base before after hb ha]
    exact cutWith_noStart _ _ _ _ h
  · intro p rest hs hf hn
    rw [urlParser_Process_eq_cutWith hostname base before after hb ha]
    exact cutWith_noEnd _ _ _ hs hf hn
  · intro p rest hs hf hin
    rw [urlParser_Process_eq_cutWith hostname base before after hb ha]
    cases hE : indexOpt after rest with
    | none => exact absurd hin ((indexOpt_eq_none_iff after rest).mp hE)
    | some j =>
      obtain ⟨_, hj, hnext⟩ := (indexOpt_eq_some_iff after rest j).mp hE
      have hsplit := indexOpt_split hE
      have hlen : (rest.take j).length = j := by simp [List.length_take, hj]
      have hnext2 : ∀ i < (rest.take j).length,
          ¬ after <+: (rest.take j ++ after ++ rest.drop (j + after.length)).drop i := by
        rw [hlen, ← hsplit]; exact hnext
      refine ⟨rest.take j, rest.drop (j + after.length), hsplit, hnext2, ?_⟩
      have hpage : page = p ++ before ++ rest.take j ++ after ++
          rest.drop (j + after.length) := by
        calc page = p ++ before ++ rest := hs
          _ = p ++ before ++ (rest.take j ++ after ++ rest.drop (j + after.length)) := by
              rw [← hsplit]
          _ = _ := by simp only [List.append_assoc]
      exact cutWith_found _ _ _ hpage hf hnext2

theorem urlParser_Process_token_witness :
    (¬ bytes "href=\"" <:+: bytes "<a href=\"2.html\">next</a>" →
      urlParser.Process simpleHostname
        ⟨bytes "http://site.com/book/1.html", bytes "href=\"" ++ bytes "|" ++ bytes "\""⟩
        (bytes "<a href=\"2.html\">next</a>") = .error (.urlStart (bytes "href=\""))) ∧
    (∀ p rest, bytes "<a href=\"2.html\">next</a>" = p ++ bytes "href=\"" ++ rest →
      (∀ i < p.length, ¬ bytes "href=\"" <+: (bytes "<a href=\"2.html\">next</a>").drop i) →
      ¬ bytes "\"" <:+: rest →
      urlParser.Process simpleHostname
        ⟨bytes "http://site.com/book/1.html", bytes "href=\"" ++ bytes "|" ++ bytes "\""⟩
        (bytes "<a href=\"2.html\">next</a>") = .error (.urlEnd (bytes "\""))) ∧
    (∀ p rest, bytes "<a href=\"2.html\">next</a>" = p ++ bytes "href=\"" ++ rest →
      (∀ i < p.length, ¬ bytes "href=\"" <+: (bytes "<a href=\"2.html\">next</a>").drop i) →
      bytes "\"" <:+: rest →
      ∃ tok q, rest = tok ++ bytes "\"" ++ q ∧
        (∀ i < tok.length, ¬ bytes "\"" <+: (tok ++ bytes "\"" ++ q).drop i) ∧
        urlParser.Process simpleHostname
          ⟨bytes "http://site.com/book/1.html", bytes "href=\"" ++ bytes "|" ++ bytes "\""⟩
          (bytes "<a href=\"2.html\">next</a>") =
          urlParser.resolve simpleHostname
            ⟨bytes "http://site.com/book/1.html", bytes "href=\"" ++ bytes "|" ++ bytes "\""⟩
            tok) :=
  urlParser_Process_token simpleHostname (bytes "<a href=\"2.html\">next</a>")
    (bytes "http://site.com/book/1.html") (bytes "href=\"") (bytes "\"")
    (by decide) (by decide)

/-- C10. With a pattern `before|after` and a page whose token `tok` lies between
the first `before` and the next `after` and starts with neither `http` nor
`/`, `urlParser.Process` returns the base-URL error if and only if the base
URL is empty or holds no `/`. -/
theorem urlParser_Process_base_error_iff (hostname : Str → Option Str)
    (page base before after p tok q : Str)
    (hb : (124 : Byte) ∉ before) (ha : (124 : Byte) ∉ after)
    (hpage : page = p ++ before ++ tok ++ after ++ q)
    (hfirst : ∀ i < p.length, ¬ before <+: page.drop i)
    (hnext : ∀ i < tok.length, ¬ after <+: (tok ++ after ++ q).drop i)
    (hhttp : ¬ bytes "http" <+: tok) (hslash : ¬ bytes "/" <+: tok) :
    urlParser.Process hostname ⟨base, before ++ bytes "|" ++ after⟩ page =
        .error (.baseUrl base) ↔
      (base = [] ∨ (47 : Byte) ∉ base) := by
  rw [urlParser_Process_eq_cutWith hostname base before after hb ha,
    cutWith_found _ _ _ hpage hfirst hnext]
  constructor
  · intro h
    by_cases hmem : (47 : Byte) ∈ base
    · obtain ⟨dir, file, hsplit, hfile⟩ := exists_last_split hmem
      have hbase2 : base = dir ++ bytes "/" ++ file := by
        rw [hsplit]; show _ = dir ++ [47] ++ file; simp
      rw [resolve_path_ok hostname ⟨base, before ++ bytes "|" ++ after⟩ hhttp hslash hbase2
        hfile] at h
      simp at h
    · exact Or.inr hmem
  · intro h
    exact resolve_path_error hostname ⟨base, before ++ bytes "|" ++ after⟩ hhttp hslash h

theorem urlParser_Process_base_error_iff_witness :
    urlParser.Process simpleHostname
        ⟨bytes "site.com", bytes "href=\"" ++ bytes "|" ++ bytes "\""⟩
        (bytes "<a href=\"2.html\">next</a>") = .error (.baseUrl (bytes "site.com")) ↔
      (bytes "site.com" = [] ∨ (47 : Byte) ∉ bytes "site.com") :=
  urlParser_Process_base_error_iff simpleHostname (bytes "<a href=\"2.html\">next</a>")
    (bytes "site.com") (bytes "href=\"") (bytes "\"")
    (bytes "<a ") (bytes "2.html") (bytes ">next</a>")
    (by decide) (by decide) (by decide) (by decide) (by decide) (by decide) (by decide)

/-! ## The fetcher -/

/-- When the next `rem + 1` attempts all fail, the loop makes all of them and
keeps the error of the last one. -/
theorem getter_loop_all_failed (client : Client) (first : Nat) (url : Str) :
    ∀ (rem made : Nat) (v : getVars),
      (∀ i < rem + 1, (client (first + made + i) url).failed = true) →
      (getter.loop client first url (rem + 1) made v).1.err =
          some ((client (first + made + rem) url).error url) ∧
        (getter.loop client first url (rem + 1) made v).2 = made + rem + 1 := by
  intro rem
  induction rem with
  | zero =>
    intro made v h
    have h0 := h 0 (by omega)
    simp only [Nat.add_zero] at h0 ⊢
    cases hc : client (first + made) url with
    | failure e => simp [getter.loop, hc, Attempt.error]
    | response resp =>
      have hs : resp.StatusCode ≠ 200 := by simpa [hc, Attempt.failed] using h0
      simp [getter.loop, hc, hs, Attempt.error]
  | succ n ih =>
    intro made v h
    have h0 := h 0 (by omega)
    simp only [Nat.add_zero] at h0
    have hrest : ∀ i < n + 1, (client (first + (made + 1) + i) url).failed = true := by
      intro i hi
      have := h (i + 1) (by omega)
      rwa [show first + made + (i + 1) = first + (made + 1) + i by omega] at this
    have hidx : first + made + (n + 1) = first + (made + 1) + n := by omega
    cases hc : client (first + made) url with
    | failure e =>
      obtain ⟨h1, h2⟩ := ih (made + 1) { err := some (.transport e), resp := none } hrest
      rw [hidx]
      refine ⟨?_, ?_⟩
      · rw [← h1]; simp [getter.loop, hc]
      · rw [show made + (n + 1) + 1 = made + 1 + n + 1 by omega, ← h2]
        simp [getter.loop, hc]
    | response resp =>
      have hs : resp.StatusCode ≠ 200 := by simpa [hc, Attempt.failed] using h0
      obtain ⟨h1, h2⟩ := ih (made + 1)
        { err := some (.status url resp.StatusCode), resp := some resp } hrest
      rw [hidx]
      refine ⟨?_, ?_⟩
      · rw [← h1]; simp [getter.loop, hc, hs]
      · rw [show made + (n + 1) + 1 = made + 1 + n + 1 by omega, ← h2]
        simp [getter.loop, hc, hs]

/-- When the first `j` attempts fail and attempt `j` answers with status 200,
the loop stops right behind attempt `j`. -/
theorem getter_loop_first_ok (client : Client) (first : Nat) (url : Str) (resp : Response)
    (h200 : resp.StatusCode = 200) :
    ∀ (j rem made : Nat) (v : getVars), j < rem →
      (∀ i < j, (client (first + made + i) url).failed = true) →
      client (first + made + j) url = .response resp →
      getter.loop client first url rem made v =
        ({ err := none, resp := some resp }, made + j + 1) := by
  intro j
  induction j with
  | zero =>
    intro rem made v hj _ hc
    obtain ⟨r, rfl⟩ : ∃ r, rem = r + 1 := ⟨rem - 1, by omega⟩
    simp only [Nat.add_zero] at hc
    simp [getter.loop, hc, h200]
  | succ n ih =>
    intro rem made v hj hfail hc
    obtain ⟨r, rfl⟩ : ∃ r, rem = r + 1 := ⟨rem - 1, by omega⟩
    have h0 := hfail 0 (by omega)
    simp only [Nat.add_zero] at h0
    have hrest : ∀ i < n, (client (first + (made + 1) + i) url).failed = true := by
      intro i hi
      have := hfail (i + 1) (by omega)
      rwa [show first + made + (i + 1) = first + (made + 1) + i by omega] at this
    have hc2 : client (first + (made + 1) + n) url = .response resp := by
      rwa [show first + made + (n + 1) = first + (made + 1) + n by omega] at hc
    have hlen : made + 1 + n + 1 = made + (n + 1) + 1 := by omega
    cases hc0 : client (first + made) url with
    | failure e =>
      have := ih r (made + 1) { err := some (.transport e), resp := none } (by omega) hrest hc2
      rw [← hlen, ← this]
      simp [getter.loop, hc0]
    | response resp0 =>
      have hs : resp0.StatusCode ≠ 200 := by simpa [hc0, Attempt.failed] using h0
      have := ih r (made + 1)
        { err := some (.status url resp0.StatusCode), resp := some resp0 } (by omega) hrest hc2
      rw [← hlen, ← this]
      simp [getter.loop, hc0, hs]

/-- C14. For `Retry ≥ 1`, with the HTTP client as an oracle: when the first `j`
attempts fail and attempt `j < Retry` answers with status 200 and a readable
body, `getter.Get` returns that body after exactly `j + 1` requests; when the
first `Retry` attempts all fail, it makes exactly `Retry` requests and returns
the error of the last one (for a status failure the error naming the URL and
the status code). -/
theorem getter_Get_retry (g : getter) (client : Client) (first : Nat) (url : Str)
    (hR : 1 ≤ g.Retry) :
    (∀ (j : Nat) (content : Str), (j : Int) < g.Retry →
      (∀ i < j, (client (first + i) url).failed = true) →
      client (first + j) url = .response { StatusCode := 200, Body := some content } →
      g.Get client first url = (.ok content, j + 1)) ∧
    ((∀ i : Nat, (i : Int) < g.Retry → (client (first + i) url).failed = true) →
      g.Get client first url =
        (.error ((client (first + (g.Retry.toNat - 1)) url).error url), g.Retry.toNat)) := by
  refine ⟨?_, ?_⟩
  · intro j content hj hfail hc
    have hloop := getter_loop_first_ok client first url
      { StatusCode := 200, Body := some content } rfl j g.Retry.toNat 0
      { err := none, resp := none } (by omega)
      (by intro i hi; simpa using hfail i hi) (by simpa using hc)
    simp [getter.Get, hloop]
  · intro hfail
    obtain ⟨r, hr⟩ : ∃ r, g.Retry.toNat = r + 1 := ⟨g.Retry.toNat - 1, by omega⟩
    have hloop := getter_loop_all_failed client first url r 0 { err := none, resp := none }
      (by intro i hi; simpa using hfail i (by omega))
    simp only [Nat.add_zero, Nat.zero_add] at hloop
    obtain ⟨h1, h2⟩ := hloop
    simp only [getter.Get, hr, h1, h2, Nat.add_sub_cancel]

theorem getter_Get_retry_witness :
    getter.Get ⟨3⟩
        (fun n _ => if n < 2 then .failure (bytes "timeout")
          else .response { StatusCode := 200, Body := some (bytes "page") })
        0 (bytes "http://site.com/book/1.html") = (.ok (bytes "page"), 2 + 1) ∧
      getter.Get ⟨3⟩ (stubClient []) 0 (bytes "http://site.com/book/1.html") =
        (.error ((stubClient [] (0 + ((3 : Int).toNat - 1))
            (bytes "http://site.com/book/1.html")).error (bytes "http://site.com/book/1.html")),
          (3 : Int).toNat) :=
  ⟨(getter_Get_retry ⟨3⟩
      (fun n _ => if n < 2 then .failure (bytes "timeout")
        else .response { StatusCode := 200, Body := some (bytes "page") })
      0 (bytes "http://site.com/book/1.html") (by decide)).1 2 (bytes "page")
      (by decide) (by decide) (by decide),
    (getter_Get_retry ⟨3⟩ (stubClient []) 0 (bytes "http://site.com/book/1.html")
      (by decide)).2 (fun _ _ => rfl)⟩

/-! ## More on the markup stripper -/

theorem formatter_Process_eq (source : Str) :
    formatter.Process source = .ok (stripScan false source) := by
  simp [formatter.Process, foldl_fmtStep_buff]

theorem stripScan_not_mem (s : Str) : ∀ inTag : Bool, (60 : Byte) ∉ stripScan inTag s := by
  induction s with
  | nil => intro inTag; simp [stripScan]
  | cons c cs ih =>
    intro inTag
    by_cases h60 : c = 60
    · simp only [stripScan, h60, if_true]; exact ih true
    · cases inTag with
      | true =>
        by_cases h62 : c = 62
        · simp only [stripScan, h60, h62, if_true, if_false]
          simpa [stripScan, h62] using ih false
        · simpa [stripScan, h60, h62] using ih true
      | false =>
        simp only [stripScan, h60, if_false, Bool.false_eq_true, List.mem_cons, not_or]
        exact ⟨fun e => h60 e.symm, ih false⟩

theorem stripScan_sublist (s : Str) : ∀ inTag : Bool, List.Sublist (stripScan inTag s) s := by
  induction s with
  | nil => intro inTag; simp [stripScan]
  | cons c cs ih =>
    intro inTag
    by_cases h60 : c = 60
    · simp only [stripScan, h60, if_true]
      exact List.Sublist.cons _ (ih true)
    · cases inTag with
      | true =>
        by_cases h62 : c = 62
        · simp only [stripScan, h60, h62, if_true, if_false]
          exact List.Sublist.cons _ (ih false)
        · simp only [stripScan, h60, h62, if_true, if_false]
          exact List.Sublist.cons _ (ih true)
      | false =>
        simp only [stripScan, h60, if_false, Bool.false_eq_true]
        exact List.Sublist.cons₂ _ (ih false)

theorem stripScan_of_not_mem : ∀ s : Str, (60 : Byte) ∉ s → stripScan false s = s := by
  intro s
  induction s with
  | nil => intro _; rfl
  | cons c cs ih =>
    intro h
    have hc : c ≠ 60 := fun e => h (e ▸ List.mem_cons_self _ _)
    have hcs : (60 : Byte) ∉ cs := fun e => h (List.mem_cons_of_mem _ e)
    simp [stripScan, hc, ih hcs]

/-- C19. For every input `x`, what `formatter.Process` returns holds no `<`, is a
subsequence of `x`, and is left unchanged by `formatter.Process`; a `>` with
no `<` open before it is kept, as in `a>b`. -/
theorem formatter_Process_idempotent :
    (∀ x : Str, ∃ y, formatter.Process x = .ok y ∧ (60 : Byte) ∉ y ∧ List.Sublist y x ∧
      formatter.Process y = .ok y) ∧
    formatter.Process (bytes "a>b") = .ok (bytes "a>b") := by
  refine ⟨?_, by decide⟩
  intro x
  refine ⟨stripScan false x, formatter_Process_eq x, stripScan_not_mem x false,
    stripScan_sublist x false, ?_⟩
  rw [formatter_Process_eq, stripScan_of_not_mem _ (stripScan_not_mem x false)]

/-! ## More on the next-link resolver -/

/-- C17, as the code has it: with base `http://site.com/book/1.html` and token
`2.html` the result is not the base cut behind its last `/` followed by `/`
and the token, which would be `http://site.com/book//2.html`. -/
theorem urlParser_Process_not_inclusive :
    (bytes "http://site.com/book/1.html").take
        ((LastIndex (bytes "http://site.com/book/1.html") (bytes "/")).toNat + 1) =
      bytes "http://site.com/book/" ∧
    urlParser.Process simpleHostname ⟨bytes "http://site.com/book/1.html", bytes "href=\"|\""⟩
      (bytes "<a href=\"2.html\">next</a>") = .ok (bytes "http://site.com/book/2.html") ∧
    urlParser.Process simpleHostname ⟨bytes "http://site.com/book/1.html", bytes "href=\"|\""⟩
      (bytes "<a href=\"2.html\">next</a>") ≠
        .ok (bytes "http://site.com/book/" ++ bytes "/" ++ bytes "2.html") := by
  decide

/-- C17, amended. With a pattern `before|after`, a page whose token `tok` lies
between the first `before` and the next `after` and starts with neither `http`
nor `/`, and a base URL `dir ++ "/" ++ file` where `file` holds no `/`, so that
`dir` is the base URL cut before its last `/`: `urlParser.Process` returns
`dir ++ "/" ++ tok`, with one `/` between `dir` and the token, and not
`dir ++ "/" ++ "/" ++ tok`. -/
theorem urlParser_Process_truncation (hostname : Str → Option Str)
    (page base before after p tok q dir file : Str)
    (hb : (124 : Byte) ∉ before) (ha : (124 : Byte) ∉ after)
    (hpage : page = p ++ before ++ tok ++ after ++ q)
    (hfirst : ∀ i < p.length, ¬ before <+: page.drop i)
    (hnext : ∀ i < tok.length, ¬ after <+: (tok ++ after ++ q).drop i)
    (hhttp : ¬ bytes "http" <+: tok) (hslash : ¬ bytes "/" <+: tok)
    (hbase : base = dir ++ bytes "/" ++ file) (hfile : (47 : Byte) ∉ file) :
    urlParser.Process hostname ⟨base, before ++ bytes "|" ++ after⟩ page =
        .ok (dir ++ bytes "/" ++ tok) ∧
      urlParser.Process hostname ⟨base, before ++ bytes "|" ++ after⟩ page ≠
        .ok ((dir ++ bytes "/") ++ bytes "/" ++ tok) := by
  have hres : urlParser.Process hostname ⟨base, before ++ bytes "|" ++ after⟩ page =
      .ok (dir ++ bytes "/" ++ tok) := by
    rw [urlParser_Process_eq_cutWith hostname base before after hb ha,
      cutWith_found _ _ _ hpage hfirst hnext]
    exact resolve_path_ok hostname _ hhttp hslash hbase hfile
  refine ⟨hres, ?_⟩
  rw [hres]
  intro h
  have hlen := congrArg List.length (Outcome.ok.inj h)
  simp only [List.length_append] at hlen
  have : (bytes "/").length = 1 := rfl
  omega

theorem urlParser_Process_truncation_witness :
    urlParser.Process simpleHostname
        ⟨bytes "http://site.com/book/1.html", bytes "href=\"" ++ bytes "|" ++ bytes "\""⟩
        (bytes "<a href=\"2.html\">next</a>") =
        .ok (bytes "http://site.com/book" ++ bytes "/" ++ bytes "2.html") ∧
      urlParser.Process simpleHostname
        ⟨bytes "http://site.com/book/1.html", bytes "href=\"" ++ bytes "|" ++ bytes "\""⟩
        (bytes "<a href=\"2.html\">next</a>") ≠
        .ok ((bytes "http://site.com/book" ++ bytes "/") ++ bytes "/" ++ bytes "2.html") :=
  urlParser_Process_truncation simpleHostname (bytes "<a href=\"2.html\">next</a>")
    (bytes "http://site.com/book/1.html") (bytes "href=\"") (bytes "\"")
    (bytes "<a ") (bytes "2.html") (bytes ">next</a>") (bytes "http://site.com/book")
    (bytes "1.html")
    (by decide) (by decide) (by decide) (by decide) (by decide) (by decide) (by decide)
    (by decide) (by decide)

/-! ## No stage panics -/

theorem resolve_total (hostname : Str → Option Str) (u : urlParser) (tok : Str) :
    (∃ r, urlParser.resolve hostname u tok = .ok r ∧ r ≠ []) ∨
      ∃ e, urlParser.resolve hostname u tok = .error e := by
  by_cases hh : bytes "http" <+: tok
  · left
    refine ⟨tok, resolve_http hostname u hh, ?_⟩
    rintro rfl
    exact absurd hh (by decide)
  · by_cases hs : bytes "/" <+: tok
    · have hne : tok ≠ [] := by
        rintro rfl
        exact absurd hs (by decide)
      cases hhost : hostname u.BaseUrl with
      | none =>
        right
        exact ⟨.urlParse u.BaseUrl, by
          simp [urlParser.resolve, HasPrefix, isPrefixOf_false hh,
            List.isPrefixOf_iff_prefix.mpr hs, hhost]⟩
      | some host =>
        left
        exact ⟨host ++ tok, resolve_host hostname u hh hs hhost, by simp [hne]⟩
    · by_cases hmem : (47 : Byte) ∈ u.BaseUrl
      · obtain ⟨dir, file, hsplit, hfile⟩ := exists_last_split hmem
        have hbase : u.BaseUrl = dir ++ bytes "/" ++ file := by
          rw [hsplit]; show _ = dir ++ [47] ++ file; simp
        left
        exact ⟨dir ++ bytes "/" ++ tok, resolve_path_ok hostname u hh hs hbase hfile, by
          simp [bytes]⟩
      · right
        exact ⟨_, resolve_path_error hostname u hh hs (Or.inr hmem)⟩

/-- `urlParser.Process` returns a non-empty string or an error; it cannot panic. -/
theorem urlParser_Process_total (hostname : Str → Option Str) (u : urlParser) (page : Str) :
    (∃ r, urlParser.Process hostname u page = .ok r ∧ r ≠ []) ∨
      ∃ e, urlParser.Process hostname u page = .error e := by
  by_cases h : ∃ a b, Split u.UrlPattern (bytes "|") (by decide) = [a, b]
  · obtain ⟨a, b, hab⟩ := h
    rw [urlParser_Process_of_split hostname u page hab]
    rcases cutWith_cases page a b (.error (.urlStart a)) (.error (.urlEnd b))
        (urlParser.resolve hostname u) with
      ⟨_, hres⟩ | ⟨_, _, _, _, _, hres⟩ | ⟨_, r, _, _, _, _, hres⟩
    · exact Or.inr ⟨_, hres⟩
    · exact Or.inr ⟨_, hres⟩
    · rw [hres]; exact resolve_total hostname u r
  · exact Or.inr ⟨.patternSplit,
      urlParser_Process_of_not_split hostname u page (fun a b hab => h ⟨a, b, hab⟩)⟩

/-- `filter.Process` returns a string or an error; it cannot panic. -/
theorem filter_Process_total (f : filter) (page : Str) :
    (∃ r, f.Process page = .ok r) ∨ ∃ e, f.Process page = .error e := by
  rcases cutWith_cases page f.ContentStart f.ContentEnd
      (.error (.contentStart f.ContentStart)) (.error (.contentEnd f.ContentEnd)) .ok with
    ⟨_, hres⟩ | ⟨_, _, _, _, _, hres⟩ | ⟨_, r, _, _, _, _, hres⟩
  · exact Or.inr ⟨_, hres⟩
  · exact Or.inr ⟨_, hres⟩
  · exact Or.inl ⟨r, hres⟩

theorem getter_loop_keeps (client : Client) (first : Nat) (url : Str) :
    ∀ (rem made : Nat) (v : getVars), (v.err ≠ none ∨ v.resp ≠ none) →
      ((getter.loop client first url rem made v).1.err ≠ none ∨
        (getter.loop client first url rem made v).1.resp ≠ none) := by
  intro rem
  induction rem with
  | zero => intro made v h; simpa [getter.loop] using h
  | succ n ih =>
    intro made v _
    cases hc : client (first + made) url with
    | failure e =>
      simp only [getter.loop, hc]
      exact ih _ _ (Or.inl (by simp))
    | response resp =>
      by_cases hs : resp.StatusCode = 200
      · simp [getter.loop, hc, hs]
      · simp only [getter.loop, hc, hs, ne_eq, not_false_eq_true, if_true]
        exact ih _ _ (Or.inl (by simp))

theorem getter_loop_set (client : Client) (first : Nat) (url : Str) (rem made : Nat)
    (v : getVars) :
    (getter.loop client first url (rem + 1) made v).1.err ≠ none ∨
      (getter.loop client first url (rem + 1) made v).1.resp ≠ none := by
  cases hc : client (first + made) url with
  | failure e =>
    simp only [getter.loop, hc]
    exact getter_loop_keeps client first url _ _ _ (Or.inl (by simp))
  | response resp =>
    by_cases hs : resp.StatusCode = 200
    · simp [getter.loop, hc, hs]
    · simp only [getter.loop, hc, hs, ne_eq, not_false_eq_true, if_true]
      exact getter_loop_keeps client first url _ _ _ (Or.inl (by simp))

/-- With `Retry ≥ 1`, `getter.Get` returns content or an error; it cannot panic. -/
theorem getter_Get_total (g : getter) (client : Client) (first : Nat) (url : Str)
    (hR : 1 ≤ g.Retry) :
    (∃ page k, g.Get client first url = (.ok page, k)) ∨
      ∃ e k, g.Get client first url = (.error e, k) := by
  obtain ⟨r, hr⟩ : ∃ r, g.Retry.toNat = r + 1 := ⟨g.Retry.toNat - 1, by omega⟩
  have hset := getter_loop_set client first url r 0 { err := none, resp := none }
  unfold getter.Get
  rw [hr]
  generalize getter.loop client first url (r + 1) 0 { err := none, resp := none } = res at hset
  obtain ⟨⟨err, resp⟩, k⟩ := res
  cases err with
  | some e => exact Or.inr ⟨e, k, rfl⟩
  | none =>
    cases resp with
    | none => simp at hset
    | some resp =>
      obtain ⟨code, body⟩ := resp
      cases body with
      | none => exact Or.inr ⟨.read, k, rfl⟩
      | some content => exact Or.inl ⟨content, k, rfl⟩

/-! ## One iteration of the crawl loop -/

theorem crawlIter_get_error (config : Config) (client : Client) (hostname : Str → Option Str)
    (st : LoopState) {e : FetchErr} {k : Nat}
    (hget : getter.Get { Retry := 3 } client st.requests st.url = (.error e, k)) :
    crawlIter config client hostname st =
      .exit 3 { url := st.url, requests := st.requests + k, gets := st.gets ++ [st.url],
                results := st.results } := by
  simp [crawlIter, hget]

theorem crawlIter_link_error (config : Config) (client : Client) (hostname : Str → Option Str)
    (st : LoopState) {page : Str} {k : Nat} {e : Err}
    (hget : getter.Get { Retry := 3 } client st.requests st.url = (.ok page, k))
    (hlink : urlParser.Process hostname ⟨config.Source.Url, config.Source.NextPattern⟩ page =
      .error e) :
    crawlIter config client hostname st =
      .exit 4 { url := [], requests := st.requests + k, gets := st.gets ++ [st.url],
                results := st.results } := by
  simp [crawlIter, hget, hlink]

theorem crawlIter_content_error (config : Config) (client : Client)
    (hostname : Str → Option Str) (st : LoopState) {page u : Str} {k : Nat} {e : Err}
    (hget : getter.Get { Retry := 3 } client st.requests st.url = (.ok page, k))
    (hlink : urlParser.Process hostname ⟨config.Source.Url, config.Source.NextPattern⟩ page =
      .ok u)
    (hcut : filter.Process ⟨config.Filter.Start, config.Filter.End⟩ page = .error e) :
    crawlIter config client hostname st =
      .exit 5 { url := u, requests := st.requests + k, gets := st.gets ++ [st.url],
                results := st.results } := by
  simp [crawlIter, hget, hlink, hcut]

theorem crawlIter_emit (config : Config) (client : Client) (hostname : Str → Option Str)
    (st : LoopState) {page u d : Str} {k : Nat}
    (hget : getter.Get { Retry := 3 } client st.requests st.url = (.ok page, k))
    (hlink : urlParser.Process hostname ⟨config.Source.Url, config.Source.NextPattern⟩ page =
      .ok u)
    (hcut : filter.Process ⟨config.Filter.Start, config.Filter.End⟩ page = .ok d) :
    crawlIter config client hostname st =
      if u = [] ∨ config.Source.AutoFetch = false then
        .done { url := u, requests := st.requests + k, gets := st.gets ++ [st.url],
                results := st.results ++ [stripScan false d] }
      else
        .next { url := u, requests := st.requests + k, gets := st.gets ++ [st.url],
                results := st.results ++ [stripScan false d] } := by
  simp [crawlIter, hget, hlink, hcut, formatter_Process_eq]

/-- Every iteration calls `getter.Get` once, on the loop-carried URL. -/
theorem crawlIter_gets (config : Config) (client : Client) (hostname : Str → Option Str)
    (st : LoopState) :
    (crawlIter config client hostname st).state.gets = st.gets ++ [st.url] := by
  rcases getter_Get_total { Retry := 3 } client st.requests st.url (by decide) with
    ⟨page, k, hget⟩ | ⟨e, k, hget⟩
  · rcases urlParser_Process_total hostname ⟨config.Source.Url, config.Source.NextPattern⟩
        page with ⟨u, hlink, _⟩ | ⟨e, hlink⟩
    · rcases filter_Process_total ⟨config.Filter.Start, config.Filter.End⟩ page with
        ⟨d, hcut⟩ | ⟨e, hcut⟩
      · rw [crawlIter_emit config client hostname st hget hlink hcut]
        split <;> rfl
      · rw [crawlIter_content_error config client hostname st hget hlink hcut]; rfl
    · rw [crawlIter_link_error config client hostname st hget hlink]; rfl
  · rw [crawlIter_get_error config client hostname st hget]; rfl

/-- With auto-fetch on, an iteration ends with another iteration or with one
of the exits 3, 4, 5. -/
theorem crawlIter_autofetch (config : Config) (client : Client) (hostname : Str → Option Str)
    (h : config.Source.AutoFetch = true) (st : LoopState) :
    (∃ st', crawlIter config client hostname st = .next st') ∨
      ∃ code st', crawlIter config client hostname st = .exit code st' ∧
        (code = 3 ∨ code = 4 ∨ code = 5) := by
  rcases getter_Get_total { Retry := 3 } client st.requests st.url (by decide) with
    ⟨page, k, hget⟩ | ⟨e, k, hget⟩
  · rcases urlParser_Process_total hostname ⟨config.Source.Url, config.Source.NextPattern⟩
        page with ⟨u, hlink, hne⟩ | ⟨e, hlink⟩
    · rcases filter_Process_total ⟨config.Filter.Start, config.Filter.End⟩ page with
        ⟨d, hcut⟩ | ⟨e, hcut⟩
      · left
        rw [crawlIter_emit config client hostname st hget hlink hcut]
        simp [hne, h]
      · right
        exact ⟨5, _, crawlIter_content_error config client hostname st hget hlink hcut,
          Or.inr (Or.inr rfl)⟩
    · right
      exact ⟨4, _, crawlIter_link_error config client hostname st hget hlink,
        Or.inr (Or.inl rfl)⟩
  · right
    exact ⟨3, _, crawlIter_get_error config client hostname st hget, Or.inl rfl⟩

/-- An exit ends the run, whatever fuel is left. -/
theorem crawl_of_exit (config : Config) (client : Client) (hostname : Str → Option Str)
    {st st' : LoopState} {code : Nat}
    (h : crawlIter config client hostname st = .exit code st') (fuel : Nat) :
    crawl config client hostname (fuel + 1) st = .exit code st' := by
  simp [crawl, h]

/-- A `break` ends the run, whatever fuel is left. -/
theorem crawl_of_done (config : Config) (client : Client) (hostname : Str → Option Str)
    {st st' : LoopState} (h : crawlIter config client hostname st = .done st') (fuel : Nat) :
    crawl config client hostname (fuel + 1) st = .done st' := by
  simp [crawl, h]

/-- A run that is still going after `n` iterations goes on from the state reached. -/
theorem crawl_add (config : Config) (client : Client) (hostname : Str → Option Str) :
    ∀ (n : Nat) (st0 st : LoopState), crawl config client hostname n st0 = .next st →
      ∀ m, crawl config client hostname (n + m) st0 = crawl config client hostname m st := by
  intro n
  induction n with
  | zero =>
    intro st0 st h m
    simp only [crawl, Step.next.injEq] at h
    subst h
    simp
  | succ n ih =>
    intro st0 st h m
    rw [show n + 1 + m = (n + m) + 1 by omega]
    cases hit : crawlIter config client hostname st0 with
    | next st1 =>
      simp only [crawl, hit] at h ⊢
      exact ih st1 st h m
    | done st1 => simp [crawl, hit] at h
    | exit code st1 => simp [crawl, hit] at h
    | panic st1 => simp [crawl, hit] at h

/-- C18. Whenever `urlParser.Process` succeeds, the URL it returns is not empty;
hence with auto-fetch on the loop of `main` never leaves through `break`: a
run is either still going or has ended with one of the exits 3, 4, 5. -/
theorem urlParser_Process_nonempty :
    (∀ (hostname : Str → Option Str) (u : urlParser) (page r : Str),
      urlParser.Process hostname u page = .ok r → r ≠ []) ∧
    (∀ (config : Config) (client : Client) (hostname : Str → Option Str),
      config.Source.AutoFetch = true → ∀ (fuel : Nat) (st : LoopState),
        (∃ st', crawl config client hostname fuel st = .next st') ∨
          ∃ code st', crawl config client hostname fuel st = .exit code st' ∧
            (code = 3 ∨ code = 4 ∨ code = 5)) := by
  refine ⟨?_, ?_⟩
  · intro hostname u page r h
    rcases urlParser_Process_total hostname u page with ⟨r2, h2, hne⟩ | ⟨e, h2⟩
    · rw [h2] at h
      exact (Outcome.ok.inj h) ▸ hne
    · rw [h2] at h
      simp at h
  · intro config client hostname hauto fuel
    induction fuel with
    | zero => intro st; exact Or.inl ⟨st, rfl⟩
    | succ n ih =>
      intro st
      rcases crawlIter_autofetch config client hostname hauto st with
        ⟨st1, h1⟩ | ⟨code, st1, h1, hcode⟩
      · have : crawl config client hostname (n + 1) st = crawl config client hostname n st1 := by
          simp [crawl, h1]
        rw [this]
        exact ih st1
      · exact Or.inr ⟨code, st1, crawl_of_exit config client hostname h1 n, hcode⟩

/-! ## The crawl loop -/

/-- C16. In a run that has reached the state `st` after `n` iterations, a failure
in the next iteration ends the run for good: exit 3 when `getter.Get` fails,
exit 4 when the next link cannot be resolved (whatever the extractor would
do), exit 5 when the link resolves and the extractor fails.  In each case
`getter.Get` was called once more, on `st.url`, and the results are those
emitted before. -/
theorem crawl_failure_fatal (config : Config) (client : Client) (hostname : Str → Option Str)
    (st0 st : LoopState) (n : Nat) (hreach : crawl config client hostname n st0 = .next st) :
    (∀ e k, getter.Get { Retry := 3 } client st.requests st.url = (.error e, k) →
      ∀ fuel, crawl config client hostname (n + (fuel + 1)) st0 =
        .exit 3 { url := st.url, requests := st.requests + k, gets := st.gets ++ [st.url],
                  results := st.results }) ∧
    (∀ page k e, getter.Get { Retry := 3 } client st.requests st.url = (.ok page, k) →
      urlParser.Process hostname ⟨config.Source.Url, config.Source.NextPattern⟩ page =
        .error e →
      ∀ fuel, crawl config client hostname (n + (fuel + 1)) st0 =
        .exit 4 { url := [], requests := st.requests + k, gets := st.gets ++ [st.url],
                  results := st.results }) ∧
    (∀ page k u e, getter.Get { Retry := 3 } client st.requests st.url = (.ok page, k) →
      urlParser.Process hostname ⟨config.Source.Url, config.Source.NextPattern⟩ page =
        .ok u →
      filter.Process ⟨config.Filter.Start, config.Filter.End⟩ page = .error e →
      ∀ fuel, crawl config client hostname (n + (fuel + 1)) st0 =
        .exit 5 { url := u, requests := st.requests + k, gets := st.gets ++ [st.url],
                  results := st.results }) := by
  refine ⟨?_, ?_, ?_⟩
  · intro e k hget fuel
    rw [crawl_add config client hostname n st0 st hreach]
    exact crawl_of_exit config client hostname
      (crawlIter_get_error config client hostname st hget) fuel
  · intro page k e hget hlink fuel
    rw [crawl_add config client hostname n st0 st hreach]
    exact crawl_of_exit config client hostname
      (crawlIter_link_error config client hostname st hget hlink) fuel
  · intro page k u e hget hlink hcut fuel
    rw [crawl_add config client hostname n st0 st hreach]
    exact crawl_of_exit config client hostname
      (crawlIter_content_error config client hostname st hget hlink hcut) fuel

theorem crawl_failure_fatal_witness :
    crawl ⟨⟨bytes "http://site.com/book/1.html", bytes "href=\"|\"", true⟩, ⟨bytes "<p>", bytes "</p>"⟩, ⟨[]⟩⟩
      (stubClient [(bytes "http://site.com/book/1.html",
          bytes "<a href=\"2.html\">n</a><p>one</p>"),
        (bytes "http://site.com/book/2.html", bytes "<a>n</a><p>two</p>")])
      simpleHostname (1 + (7 + 1)) (crawlInit ⟨⟨bytes "http://site.com/book/1.html", bytes "href=\"|\"", true⟩, ⟨bytes "<p>", bytes "</p>"⟩, ⟨[]⟩⟩) =
      .exit 4 { url := [], requests := 1 + 1,
                gets := [bytes "http://site.com/book/1.html"] ++
                  [bytes "http://site.com/book/2.html"],
                results := [bytes "one"] } :=
  (crawl_failure_fatal ⟨⟨bytes "http://site.com/book/1.html", bytes "href=\"|\"", true⟩, ⟨bytes "<p>", bytes "</p>"⟩, ⟨[]⟩⟩
    (stubClient [(bytes "http://site.com/book/1.html",
        bytes "<a href=\"2.html\">n</a><p>one</p>"),
      (bytes "http://site.com/book/2.html", bytes "<a>n</a><p>two</p>")])
    simpleHostname (crawlInit ⟨⟨bytes "http://site.com/book/1.html", bytes "href=\"|\"", true⟩, ⟨bytes "<p>", bytes "</p>"⟩, ⟨[]⟩⟩)
    { url := bytes "http://site.com/book/2.html", requests := 1,
      gets := [bytes "http://site.com/book/1.html"], results := [bytes "one"] }
    1 (by decide)).2.1 (bytes "<a>n</a><p>two</p>") 1 (.urlStart (bytes "href=\""))
    (by decide) (by decide) 7

/-- C15. With auto-fetch off, once the first page is fetched, its next link
resolved and its content cut out, the run makes that one call of `getter.Get`,
on the start URL, emits the one result `formatter.Process` gives for the
content, and ends with `break`, whatever URL was resolved.  With auto-fetch on
and a non-empty resolved URL `u`, the iteration is followed by another one,
whose call of `getter.Get` is on `u`. -/
theorem crawl_autofetch_switch (config : Config) (client : Client)
    (hostname : Str → Option Str) :
    (∀ page k u d, config.Source.AutoFetch = false →
      getter.Get { Retry := 3 } client 0 config.Source.Url = (.ok page, k) →
      urlParser.Process hostname ⟨config.Source.Url, config.Source.NextPattern⟩ page =
        .ok u →
      filter.Process ⟨config.Filter.Start, config.Filter.End⟩ page = .ok d →
      ∃ r, formatter.Process d = .ok r ∧
        ∀ fuel, crawl config client hostname (fuel + 1) (crawlInit config) =
          .done { url := u, requests := k, gets := [config.Source.Url], results := [r] }) ∧
    (∀ (st : LoopState) page k u d, config.Source.AutoFetch = true →
      getter.Get { Retry := 3 } client st.requests st.url = (.ok page, k) →
      urlParser.Process hostname ⟨config.Source.Url, config.Source.NextPattern⟩ page =
        .ok u →
      u ≠ [] →
      filter.Process ⟨config.Filter.Start, config.Filter.End⟩ page = .ok d →
      ∃ st', crawlIter config client hostname st = .next st' ∧ st'.url = u ∧
        (crawlIter config client hostname st').state.gets = st.gets ++ [st.url] ++ [u]) := by
  refine ⟨?_, ?_⟩
  · intro page k u d hoff hget hlink hcut
    refine ⟨stripScan false d, formatter_Process_eq d, ?_⟩
    intro fuel
    apply crawl_of_done
    have := crawlIter_emit config client hostname (crawlInit config) hget hlink hcut
    simpa [hoff, crawlInit] using this
  · intro st page k u d hon hget hlink hne hcut
    have hstep := crawlIter_emit config client hostname st hget hlink hcut
    simp only [hne, hon, false_or, Bool.true_eq_false, if_false] at hstep
    refine ⟨_, hstep, rfl, ?_⟩
    rw [crawlIter_gets]

theorem crawl_autofetch_switch_witness :
    ∃ r, formatter.Process (bytes "o<b>n</b>e") = .ok r ∧
      ∀ fuel, crawl ⟨⟨bytes "http://site.com/book/1.html", bytes "href=\"|\"", false⟩, ⟨bytes "<p>", bytes "</p>"⟩, ⟨[]⟩⟩
        (stubClient [(bytes "http://site.com/book/1.html",
          bytes "<a href=\"2.html\">n</a><p>o<b>n</b>e</p>")])
        simpleHostname (fuel + 1) (crawlInit ⟨⟨bytes "http://site.com/book/1.html", bytes "href=\"|\"", false⟩, ⟨bytes "<p>", bytes "</p>"⟩, ⟨[]⟩⟩) =
        .done { url := bytes "http://site.com/book/2.html", requests := 1,
                gets := [bytes "http://site.com/book/1.html"], results := [r] } :=
  (crawl_autofetch_switch ⟨⟨bytes "http://site.com/book/1.html", bytes "href=\"|\"", false⟩, ⟨bytes "<p>", bytes "</p>"⟩, ⟨[]⟩⟩
    (stubClient [(bytes "http://site.com/book/1.html",
      bytes "<a href=\"2.html\">n</a><p>o<b>n</b>e</p>")])
    simpleHostname).1 (bytes "<a href=\"2.html\">n</a><p>o<b>n</b>e</p>") 1
    (bytes "http://site.com/book/2.html") (bytes "o<b>n</b>e")
    (by decide) (by decide) (by decide) (by decide)

/-- C11, as the code has it: with auto-fetch on and a stub serving
`http://site.com/book/1.html` (next link `2.html`) and
`http://site.com/book/2.html` (next link empty, `href=""`), the run is still
going after the two results, with `http://site.com/book/` as its URL, and its
third iteration calls `getter.Get` on that URL. -/
theorem crawl_empty_token_third_get :
    crawl ⟨⟨bytes "http://site.com/book/1.html", bytes "href=\"|\"", true⟩, ⟨bytes "<p>", bytes "</p>"⟩, ⟨[]⟩⟩
      (stubClient [(bytes "http://site.com/book/1.html",
          bytes "<a href=\"2.html\">n</a><p>one</p>"),
        (bytes "http://site.com/book/2.html", bytes "<a href=\"\">n</a><p>two</p>")])
      simpleHostname 2 (crawlInit ⟨⟨bytes "http://site.com/book/1.html", bytes "href=\"|\"", true⟩, ⟨bytes "<p>", bytes "</p>"⟩, ⟨[]⟩⟩) =
      .next { url := bytes "http://site.com/book/", requests := 2,
              gets := [bytes "http://site.com/book/1.html", bytes "http://site.com/book/2.html"],
              results := [bytes "one", bytes "two"] } ∧
    crawl ⟨⟨bytes "http://site.com/book/1.html", bytes "href=\"|\"", true⟩, ⟨bytes "<p>", bytes "</p>"⟩, ⟨[]⟩⟩
      (stubClient [(bytes "http://site.com/book/1.html",
          bytes "<a href=\"2.html\">n</a><p>one</p>"),
        (bytes "http://site.com/book/2.html", bytes "<a href=\"\">n</a><p>two</p>")])
      simpleHostname 3 (crawlInit ⟨⟨bytes "http://site.com/book/1.html", bytes "href=\"|\"", true⟩, ⟨bytes "<p>", bytes "</p>"⟩, ⟨[]⟩⟩) =
      .exit 3 { url := bytes "http://site.com/book/", requests := 5,
                gets := [bytes "http://site.com/book/1.html",
                  bytes "http://site.com/book/2.html", bytes "http://site.com/book/"],
                results := [bytes "one", bytes "two"] } := by
  decide

theorem crawlIter_url (config : Config) (client : Client) (hostname : Str → Option Str)
    (st : LoopState) {page u : Str} {k : Nat}
    (hget : getter.Get { Retry := 3 } client st.requests st.url = (.ok page, k))
    (hlink : urlParser.Process hostname ⟨config.Source.Url, config.Source.NextPattern⟩ page =
      .ok u) :
    (crawlIter config client hostname st).state.url = u := by
  rcases filter_Process_total ⟨config.Filter.Start, config.Filter.End⟩ page with
    ⟨d, hcut⟩ | ⟨e, hcut⟩
  · rw [crawlIter_emit config client hostname st hget hlink hcut]
    split <;> rfl
  · rw [crawlIter_content_error config client hostname st hget hlink hcut]; rfl

/-- C12, as the code has it: from the start URL `http://site.com/a/1.html`, whose
page links to `http://site.com/b/2.html`, whose page has the token `3.html`,
the third call of `getter.Get` is on `http://site.com/a/3.html`, not on
`http://site.com/b/3.html`. -/
theorem crawl_third_get_from_start_dir :
    (crawl ⟨⟨bytes "http://site.com/a/1.html", bytes "href=\"|\"", true⟩, ⟨bytes "<p>", bytes "</p>"⟩, ⟨[]⟩⟩
      (stubClient [(bytes "http://site.com/a/1.html",
          bytes "<a href=\"http://site.com/b/2.html\">n</a><p>one</p>"),
        (bytes "http://site.com/b/2.html", bytes "<a href=\"3.html\">n</a><p>two</p>")])
      simpleHostname 3 (crawlInit ⟨⟨bytes "http://site.com/a/1.html", bytes "href=\"|\"", true⟩, ⟨bytes "<p>", bytes "</p>"⟩, ⟨[]⟩⟩)).state.gets =
      [bytes "http://site.com/a/1.html", bytes "http://site.com/b/2.html",
        bytes "http://site.com/a/3.html"] ∧
    (crawl ⟨⟨bytes "http://site.com/a/1.html", bytes "href=\"|\"", true⟩, ⟨bytes "<p>", bytes "</p>"⟩, ⟨[]⟩⟩
      (stubClient [(bytes "http://site.com/a/1.html",
          bytes "<a href=\"http://site.com/b/2.html\">n</a><p>one</p>"),
        (bytes "http://site.com/b/2.html", bytes "<a href=\"3.html\">n</a><p>two</p>")])
      simpleHostname 3 (crawlInit ⟨⟨bytes "http://site.com/a/1.html", bytes "href=\"|\"", true⟩, ⟨bytes "<p>", bytes "</p>"⟩, ⟨[]⟩⟩)).state.gets ≠
      [bytes "http://site.com/a/1.html", bytes "http://site.com/b/2.html",
        bytes "http://site.com/b/3.html"] := by
  decide

/-- C12, amended. In every iteration of the loop of `main` the next link of the
fetched page is resolved against the configured start URL `config.Source.Url`,
whatever URL `st.url` was just fetched: the loop-carried URL becomes what
`urlParser.Process` with `BaseUrl = config.Source.Url` returns, a resolver
error ends the run with exit 4, and a path-relative token `tok` is appended to
the directory part of the start URL. -/
theorem crawl_base_is_start_url (config : Config) (client : Client)
    (hostname : Str → Option Str) (st : LoopState) (page : Str) (k : Nat)
    (hget : getter.Get { Retry := 3 } client st.requests st.url = (.ok page, k)) :
    (∀ u, urlParser.Process hostname ⟨config.Source.Url, config.Source.NextPattern⟩ page =
        .ok u → (crawlIter config client hostname st).state.url = u) ∧
    (∀ e, urlParser.Process hostname ⟨config.Source.Url, config.Source.NextPattern⟩ page =
        .error e → ∃ st', crawlIter config client hostname st = .exit 4 st') ∧
    (∀ before after p tok q dir file : Str,
      config.Source.NextPattern = before ++ bytes "|" ++ after →
      (124 : Byte) ∉ before → (124 : Byte) ∉ after →
      page = p ++ before ++ tok ++ after ++ q →
      (∀ i < p.length, ¬ before <+: page.drop i) →
      (∀ i < tok.length, ¬ after <+: (tok ++ after ++ q).drop i) →
      ¬ bytes "http" <+: tok → ¬ bytes "/" <+: tok →
      config.Source.Url = dir ++ bytes "/" ++ file → (47 : Byte) ∉ file →
      (crawlIter config client hostname st).state.url = dir ++ bytes "/" ++ tok) := by
  refine ⟨?_, ?_, ?_⟩
  · intro u hlink
    exact crawlIter_url config client hostname st hget hlink
  · intro e hlink
    exact ⟨_, crawlIter_link_error config client hostname st hget hlink⟩
  · intro before after p tok q dir file hpat hb ha hpage hfirst hnext hhttp hslash hbase hfile
    apply crawlIter_url config client hostname st hget
    rw [hpat, urlParser_Process_eq_cutWith hostname _ before after hb ha,
      cutWith_found _ _ _ hpage hfirst hnext]
    exact resolve_path_ok hostname _ hhttp hslash hbase hfile

theorem crawl_base_is_start_url_witness :
    (crawlIter ⟨⟨bytes "http://site.com/a/1.html", bytes "href=\"|\"", true⟩, ⟨bytes "<p>", bytes "</p>"⟩, ⟨[]⟩⟩
      (stubClient [(bytes "http://site.com/a/1.html",
          bytes "<a href=\"http://site.com/b/2.html\">n</a><p>one</p>"),
        (bytes "http://site.com/b/2.html", bytes "<a href=\"3.html\">n</a><p>two</p>")])
      simpleHostname
      { url := bytes "http://site.com/b/2.html", requests := 1,
        gets := [bytes "http://site.com/a/1.html"], results := [bytes "one"] }).state.url =
      bytes "http://site.com/a" ++ bytes "/" ++ bytes "3.html" :=
  (crawl_base_is_start_url ⟨⟨bytes "http://site.com/a/1.html", bytes "href=\"|\"", true⟩, ⟨bytes "<p>", bytes "</p>"⟩, ⟨[]⟩⟩
    (stubClient [(bytes "http://site.com/a/1.html",
          bytes "<a href=\"http://site.com/b/2.html\">n</a><p>one</p>"),
        (bytes "http://site.com/b/2.html", bytes "<a href=\"3.html\">n</a><p>two</p>")])
    simpleHostname
    { url := bytes "http://site.com/b/2.html", requests := 1,
      gets := [bytes "http://site.com/a/1.html"], results := [bytes "one"] }
    (bytes "<a href=\"3.html\">n</a><p>two</p>") 1 (by decide)).2.2
    (bytes "href=\"") (bytes "\"") (bytes "<a ") (bytes "3.html") (bytes ">n</a><p>two</p>")
    (bytes "http://site.com/a") (bytes "1.html")
    (by decide) (by decide) (by decide) (by decide) (by decide) (by decide) (by decide)
    (by decide) (by decide) (by decide)

/-- A string that begins with `s0 ++ "/"` and is cut at its last `/` keeps
`s0 ++ "/"` at the front when anything is put behind that `/`. -/
theorem prefix_of_last_split {s0 rest dir file tok : Str}
    (h : s0 ++ [47] ++ rest = dir ++ [47] ++ file) (hfile : (47 : Byte) ∉ file) :
    s0 ++ [47] <+: dir ++ [47] ++ tok := by
  have h2 : (s0 ++ [47]) ++ rest = dir ++ (47 :: file) := by simpa using h
  rcases List.append_eq_append_iff.mp h2 with ⟨a, ha, _⟩ | ⟨c, hc1, hc2⟩
  · exact ⟨a ++ [47] ++ tok, by simp [ha]⟩
  · cases c with
    | nil =>
      refine ⟨[47] ++ tok, ?_⟩
      rw [hc1]; simp
    | cons x c2 =>
      have hx : x = 47 := by
        have := (List.cons.inj hc2).1
        exact this.symm
      have hf : file = c2 ++ rest := (List.cons.inj hc2).2
      rcases List.eq_nil_or_concat c2 with hnil | ⟨L, b, hL⟩
      · subst hnil
        subst hx
        rw [hc1]
        exact ⟨tok, rfl⟩
      · rw [List.concat_eq_append] at hL
        subst hL
        have h3 : s0 ++ [47] = (dir ++ x :: L) ++ [b] := by rw [hc1]; simp
        have hb : b = 47 := by
          have := (List.append_inj' h3 rfl).2
          exact (List.cons.inj this).1.symm
        exfalso
        apply hfile
        rw [hf, hb]
        simp

/-- C13, as the code has it: from the start URL `http://site.com/book/1.html`, a
page with the token `/chapter/2` leaves the loop with the URL
`site.com/chapter/2`, and a page with the token `httpd-notes.html` leaves it
with the URL `httpd-notes.html`; neither is empty and neither carries a
scheme. -/
theorem crawl_url_without_scheme :
    (crawlIter ⟨⟨bytes "http://site.com/book/1.html", bytes "href=\"|\"", true⟩, ⟨bytes "<p>", bytes "</p>"⟩, ⟨[]⟩⟩
      (stubClient [(bytes "http://site.com/book/1.html",
        bytes "<a href=\"/chapter/2\">n</a><p>one</p>")])
      simpleHostname (crawlInit ⟨⟨bytes "http://site.com/book/1.html", bytes "href=\"|\"", true⟩, ⟨bytes "<p>", bytes "</p>"⟩, ⟨[]⟩⟩)).state.url = bytes "site.com/chapter/2" ∧
    ¬ bytes "http://" <+: bytes "site.com/chapter/2" ∧
    ¬ bytes "https://" <+: bytes "site.com/chapter/2" ∧
    (crawlIter ⟨⟨bytes "http://site.com/book/1.html", bytes "href=\"|\"", true⟩, ⟨bytes "<p>", bytes "</p>"⟩, ⟨[]⟩⟩
      (stubClient [(bytes "http://site.com/book/1.html",
        bytes "<a href=\"httpd-notes.html\">n</a><p>one</p>")])
      simpleHostname (crawlInit ⟨⟨bytes "http://site.com/book/1.html", bytes "href=\"|\"", true⟩, ⟨bytes "<p>", bytes "</p>"⟩, ⟨[]⟩⟩)).state.url = bytes "httpd-notes.html" ∧
    ¬ bytes "http://" <+: bytes "httpd-notes.html" ∧
    ¬ bytes "https://" <+: bytes "httpd-notes.html" := by
  decide

/-- C13, amended. With a start URL that begins with `http://` or `https://`, an
iteration that fetches a page whose token `tok` does not start with `/` leaves
the loop with a URL that is not empty and begins with `http`: the token itself
when the token begins with `http`, and otherwise a URL that begins with the
scheme of the start URL. -/
theorem crawl_url_scheme (config : Config) (client : Client) (hostname : Str → Option Str)
    (st : LoopState) (page before after p tok q scheme rest : Str) (k : Nat)
    (hscheme : scheme = bytes "http://" ∨ scheme = bytes "https://")
    (hstart : config.Source.Url = scheme ++ rest)
    (hpat : config.Source.NextPattern = before ++ bytes "|" ++ after)
    (hb : (124 : Byte) ∉ before) (ha : (124 : Byte) ∉ after)
    (hget : getter.Get { Retry := 3 } client st.requests st.url = (.ok page, k))
    (hpage : page = p ++ before ++ tok ++ after ++ q)
    (hfirst : ∀ i < p.length, ¬ before <+: page.drop i)
    (hnext : ∀ i < tok.length, ¬ after <+: (tok ++ after ++ q).drop i)
    (htok : ¬ bytes "/" <+: tok) :
    (crawlIter config client hostname st).state.url ≠ [] ∧
    bytes "http" <+: (crawlIter config client hostname st).state.url ∧
    (bytes "http" <+: tok → (crawlIter config client hostname st).state.url = tok) ∧
    (¬ bytes "http" <+: tok → scheme <+: (crawlIter config client hostname st).state.url) := by
  have hproc : urlParser.Process hostname ⟨config.Source.Url, config.Source.NextPattern⟩ page =
      urlParser.resolve hostname ⟨config.Source.Url, before ++ bytes "|" ++ after⟩ tok := by
    rw [hpat, urlParser_Process_eq_cutWith hostname _ before after hb ha,
      cutWith_found _ _ _ hpage hfirst hnext]
  have hne : ∀ u : Str, bytes "http" <+: u → u ≠ [] := by
    rintro u hu rfl
    exact absurd hu (by decide)
  by_cases hhttp : bytes "http" <+: tok
  · have hurl : (crawlIter config client hostname st).state.url = tok := by
      apply crawlIter_url config client hostname st hget
      rw [hproc]
      exact resolve_http hostname _ hhttp
    rw [hurl]
    exact ⟨hne tok hhttp, hhttp, fun _ => rfl, fun h => absurd hhttp h⟩
  · obtain ⟨s0, hs0, hs0http⟩ :
        ∃ s0 : Str, scheme = s0 ++ [47] ∧ bytes "http" <+: s0 ++ [47] := by
      rcases hscheme with h | h
      · exact ⟨bytes "http:/", by rw [h]; decide, by decide⟩
      · exact ⟨bytes "https:/", by rw [h]; decide, by decide⟩
    have hmem : (47 : Byte) ∈ config.Source.Url := by
      rw [hstart, hs0]; simp
    obtain ⟨dir, file, hsplit, hfile⟩ := exists_last_split hmem
    have hbase : config.Source.Url = dir ++ bytes "/" ++ file := by
      rw [hsplit]; show _ = dir ++ [47] ++ file; simp
    have hurl : (crawlIter config client hostname st).state.url = dir ++ bytes "/" ++ tok := by
      apply crawlIter_url config client hostname st hget
      rw [hproc]
      exact resolve_path_ok hostname ⟨config.Source.Url, _⟩ hhttp htok hbase hfile
    have hpre : scheme <+: dir ++ bytes "/" ++ tok := by
      rw [hs0]
      have hdecomp : s0 ++ [47] ++ rest = dir ++ [47] ++ file := by
        rw [← hs0, ← hstart, hsplit]; simp
      exact prefix_of_last_split hdecomp hfile
    have hpre2 : bytes "http" <+: dir ++ bytes "/" ++ tok := by
      rw [hs0] at hpre
      exact hs0http.trans hpre
    rw [hurl]
    exact ⟨hne _ hpre2, hpre2, fun h => absurd h hhttp, fun _ => hpre⟩

theorem crawl_url_scheme_witness :
    (crawlIter ⟨⟨bytes "http://site.com/book/1.html", bytes "href=\"|\"", true⟩, ⟨bytes "<p>", bytes "</p>"⟩, ⟨[]⟩⟩
      (stubClient [(bytes "http://site.com/book/1.html",
        bytes "<a href=\"2.html\">n</a><p>one</p>")])
      simpleHostname (crawlInit ⟨⟨bytes "http://site.com/book/1.html", bytes "href=\"|\"", true⟩, ⟨bytes "<p>", bytes "</p>"⟩, ⟨[]⟩⟩)).state.url ≠ [] ∧
    bytes "http" <+: (crawlIter ⟨⟨bytes "http://site.com/book/1.html", bytes "href=\"|\"", true⟩, ⟨bytes "<p>", bytes "</p>"⟩, ⟨[]⟩⟩
      (stubClient [(bytes "http://site.com/book/1.html",
        bytes "<a href=\"2.html\">n</a><p>one</p>")])
      simpleHostname (crawlInit ⟨⟨bytes "http://site.com/book/1.html", bytes "href=\"|\"", true⟩, ⟨bytes "<p>", bytes "</p>"⟩, ⟨[]⟩⟩)).state.url ∧
    (bytes "http" <+: bytes "2.html" → (crawlIter ⟨⟨bytes "http://site.com/book/1.html", bytes "href=\"|\"", true⟩, ⟨bytes "<p>", bytes "</p>"⟩, ⟨[]⟩⟩
      (stubClient [(bytes "http://site.com/book/1.html",
        bytes "<a href=\"2.html\">n</a><p>one</p>")])
      simpleHostname (crawlInit ⟨⟨bytes "http://site.com/book/1.html", bytes "href=\"|\"", true⟩, ⟨bytes "<p>", bytes "</p>"⟩, ⟨[]⟩⟩)).state.url = bytes "2.html") ∧
    (¬ bytes "http" <+: bytes "2.html" → bytes "http://" <+: (crawlIter ⟨⟨bytes "http://site.com/book/1.html", bytes "href=\"|\"", true⟩, ⟨bytes "<p>", bytes "</p>"⟩, ⟨[]⟩⟩
      (stubClient [(bytes "http://site.com/book/1.html",
        bytes "<a href=\"2.html\">n</a><p>one</p>")])
      simpleHostname (crawlInit ⟨⟨bytes "http://site.com/book/1.html", bytes "href=\"|\"", true⟩, ⟨bytes "<p>", bytes "</p>"⟩, ⟨[]⟩⟩)).state.url) :=
  crawl_url_scheme ⟨⟨bytes "http://site.com/book/1.html", bytes "href=\"|\"", true⟩, ⟨bytes "<p>", bytes "</p>"⟩, ⟨[]⟩⟩
    (stubClient [(bytes "http://site.com/book/1.html",
      bytes "<a href=\"2.html\">n</a><p>one</p>")])
    simpleHostname (crawlInit ⟨⟨bytes "http://site.com/book/1.html", bytes "href=\"|\"", true⟩, ⟨bytes "<p>", bytes "</p>"⟩, ⟨[]⟩⟩) (bytes "<a href=\"2.html\">n</a><p>one</p>")
    (bytes "href=\"") (bytes "\"") (bytes "<a ") (bytes "2.html") (bytes ">n</a><p>one</p>")
    (bytes "http://") (bytes "site.com/book/1.html") 1
    (Or.inl rfl) (by decide) (by decide) (by decide) (by decide) (by decide) (by decide)
    (by decide) (by decide) (by decide)

/-! ## The legacy helper `content` -/

theorem slice_cast (s : Str) (a b : Nat) :
    slice s (a : Int) (b : Int) =
      if a ≤ b ∧ b ≤ s.length then some ((s.drop a).take (b - a)) else none := by
  by_cases h : a ≤ b ∧ b ≤ s.length
  · have hc : (0 : Int) ≤ (a : Int) ∧ (a : Int) ≤ (b : Int) ∧ (b : Int) ≤ (s.length : Int) :=
      ⟨by omega, by omega, by omega⟩
    simp only [slice, hc, h, and_self, if_true, Int.toNat_ofNat, List.drop_take]
  · have hc : ¬ ((0 : Int) ≤ (a : Int) ∧ (a : Int) ≤ (b : Int) ∧
        (b : Int) ≤ (s.length : Int)) := by
      intro hc
      exact h ⟨by omega, by omega⟩
    simp only [slice, hc, h, if_false]

/-- `content` in terms of its two searches, both from the start of the text. -/
theorem content_eq (text start end_ : Str) :
    content text start end_ =
      match indexOpt start text with
      | none => .error (.startTag start text)
      | some i =>
        match indexOpt end_ text with
        | none => .error (.endTag end_ text)
        | some e =>
          if i + start.length ≤ e then
            .ok ((text.drop (i + start.length)).take (e - (i + start.length)))
          else .panic := by
  unfold content
  cases hS : indexOpt start text with
  | none => simp [Index_of_none hS]
  | some i =>
    have hpos : ¬ ((i : Int) < 0) := by omega
    simp only [Index_of_some hS, hpos, if_false]
    cases hE : indexOpt end_ text with
    | none => simp [Index_of_none hE]
    | some e =>
      have hpos2 : ¬ ((e : Int) < 0) := by omega
      have hb := indexOpt_bound hE
      simp only [Index_of_some hE, hpos2, if_false]
      have hsl := slice_cast text (i + start.length) e
      rw [Nat.cast_add] at hsl
      rw [hsl]
      by_cases hle : i + start.length ≤ e
      · have hboth : i + start.length ≤ e ∧ e ≤ text.length := ⟨hle, by omega⟩
        simp [hboth, hle]
      · simp [hle]

theorem indexOpt_of_infix {sub s : Str} (h : sub <:+: s) : ∃ i, indexOpt sub s = some i := by
  cases hi : indexOpt sub s with
  | none => exact absurd h ((indexOpt_eq_none_iff sub s).mp hi)
  | some i => exact ⟨i, rfl⟩

/-- C20. `content` against `filter.Process` on the same text and markers.  When
`start` occurs and the first instance of `end_` in the whole text begins at or
behind the end of the first instance of `start`, `content` stays within the
slice bounds and returns the very string `filter.Process` returns.  When
`start` does not occur, or `start` occurs and `end_` does not occur at all,
both return their error for that marker.  The remaining case, an instance of
`end_` beginning before the end of the first instance of `start`, is the only
one in which they differ: `content` panics on the slice and `filter.Process`
does not. -/
theorem content_agrees_with_filter (text start end_ : Str) :
    (∀ p rest, text = p ++ start ++ rest → (∀ i < p.length, ¬ start <+: text.drop i) →
      end_ <:+: text → (∀ i < p.length + start.length, ¬ end_ <+: text.drop i) →
      ∃ r, content text start end_ = .ok r ∧ filter.Process ⟨start, end_⟩ text = .ok r) ∧
    (¬ start <:+: text →
      content text start end_ = .error (.startTag start text) ∧
        filter.Process ⟨start, end_⟩ text = .error (.contentStart start)) ∧
    (start <:+: text → ¬ end_ <:+: text →
      content text start end_ = .error (.endTag end_ text) ∧
        filter.Process ⟨start, end_⟩ text = .error (.contentEnd end_)) ∧
    (∀ p rest i, text = p ++ start ++ rest → (∀ j < p.length, ¬ start <+: text.drop j) →
      i < p.length + start.length → end_ <+: text.drop i →
      content text start end_ = .panic ∧ filter.Process ⟨start, end_⟩ text ≠ .panic) := by
  refine ⟨?_, ?_, ?_, ?_⟩
  · intro p rest hs hfirst hin hlate
    have hS := indexOpt_of_first hs hfirst
    obtain ⟨e, hE⟩ := indexOpt_of_infix hin
    obtain ⟨hpre, hle, hmin⟩ := (indexOpt_eq_some_iff end_ text e).mp hE
    have hge : p.length + start.length ≤ e := by
      by_contra hlt
      exact hlate e (by omega) hpre
    have hE2 : indexOpt end_ (text.drop (p.length + start.length)) =
        some (e - (p.length + start.length)) := by
      apply (indexOpt_eq_some_iff _ _ _).mpr
      refine ⟨?_, ?_, ?_⟩
      · rw [List.drop_drop, show p.length + start.length + (e - (p.length + start.length)) = e
          by omega]
        exact hpre
      · rw [List.length_drop]; omega
      · intro j hj
        rw [List.drop_drop]
        exact hmin _ (by omega)
    refine ⟨(text.drop (p.length + start.length)).take (e - (p.length + start.length)), ?_, ?_⟩
    · rw [content_eq, hS]
      simp only [hE, hge, if_true]
    · rw [filter_Process_eq_cutWith, cutWith_eq]
      simp only [hS, hE2]
  · intro hno
    refine ⟨?_, cutWith_noStart _ _ _ _ hno⟩
    rw [content_eq, (indexOpt_eq_none_iff start text).mpr hno]
  · intro hin hno
    obtain ⟨i, hS⟩ := indexOpt_of_infix hin
    refine ⟨?_, ?_⟩
    · rw [content_eq, hS]
      simp only [(indexOpt_eq_none_iff end_ text).mpr hno]
    · rw [filter_Process_eq_cutWith, cutWith_eq]
      have hno2 : ¬ end_ <:+: text.drop (i + start.length) := by
        intro h
        exact hno (h.trans (List.drop_suffix _ _).isInfix)
      simp only [hS, (indexOpt_eq_none_iff end_ _).mpr hno2]
  · intro p rest i hs hfirst hi hpre
    have hS := indexOpt_of_first hs hfirst
    have hin : end_ <:+: text := hpre.isInfix.trans (List.drop_suffix _ _).isInfix
    obtain ⟨e, hE⟩ := indexOpt_of_infix hin
    obtain ⟨_, _, hmin⟩ := (indexOpt_eq_some_iff end_ text e).mp hE
    have hle : e ≤ i := by
      by_contra hlt
      exact hmin i (by omega) hpre
    refine ⟨?_, ?_⟩
    · rw [content_eq, hS]
      have hnot : ¬ p.length + start.length ≤ e := by omega
      simp only [hE, hnot, if_false]
    · intro hpanic
      rcases filter_Process_total ⟨start, end_⟩ text with ⟨r, hr⟩ | ⟨err, hr⟩
      · rw [hr] at hpanic; simp at hpanic
      · rw [hr] at hpanic; simp at hpanic

theorem content_agrees_with_filter_witness :
    (∃ r, content (bytes "x<t>hello</t>y") (bytes "<t>") (bytes "</t>") = .ok r ∧
      filter.Process ⟨bytes "<t>", bytes "</t>"⟩ (bytes "x<t>hello</t>y") = .ok r) ∧
    (content (bytes "a</t><t>hello</t>y") (bytes "<t>") (bytes "</t>") = .panic ∧
      filter.Process ⟨bytes "<t>", bytes "</t>"⟩ (bytes "a</t><t>hello</t>y") ≠ .panic) :=
  ⟨(content_agrees_with_filter (bytes "x<t>hello</t>y") (bytes "<t>") (bytes "</t>")).1
      (bytes "x") (bytes "hello</t>y") (by decide) (by decide) (by decide) (by decide),
    (content_agrees_with_filter (bytes "a</t><t>hello</t>y") (bytes "<t>")
      (bytes "</t>")).2.2.2 (bytes "a</t>") (bytes "hello</t>y") 1
      (by decide) (by decide) (by decide) (by decide)⟩

end Datacacher
